import Mathlib

/-!
Shallow embedding of the `StringDictionary` component of mapd-core
(`src/StringDictionary/StringDictionary.cpp`) and proofs about it.

The C++ class is modelled as a pure state type `Dict`; every operation is a
Lean function from the source, with locks erased (the embedded semantics is
the single-threaded, exclusively locked execution) and the memory-mapped
files abstracted to the lists of live bytes/records they contain.  CHECK
failures and non-terminating probe loops are modelled as `Option.none`.
Declarations whose C++ source is not under `src/` (the class header and the
shared `sqltypes.h` / `StringLike.h` helpers) are modelled from the spec and
say so in their doc comment.
-/

namespace StringDict

/-- Byte strings: the payload bytes of a `std::string`, each in `0..255`. -/
abbrev Str := List Nat

/-- Sentinel `INVALID_STR_ID = -1`, marking an empty bucket slot. -/
def INVALID_STR_ID : Int := -1

/-- Modelled from the spec: `MAX_STRLEN` is declared in the missing class
header; the spec fixes the offset-record size field at 16 bits with canary
`0xFFFF` and says the bound is "on the order of tens of thousands of bytes",
so we take the largest value compatible with that, `2^15 - 1`. -/
def MAX_STRLEN : Nat := 2 ^ 15 - 1

/-- Modelled from the spec: `MAX_STRCOUNT` is declared in the missing class
header; it is an implementation-defined compile-time bound on the number of
entries, small enough that ids fit in a non-negative `int32_t` and that
recovery's `round_up_p2(2*n+1)` table size stays below `2^32`. -/
def MAX_STRCOUNT : Nat := 2 ^ 30 - 1

/-- Modelled from the spec: `inline_int_null_value<int32_t>` from the missing
`sqltypes.h` — the NULL sentinel is the minimum signed 32-bit value. -/
def nullInt32 : Int := -(2 ^ 31)

/-- Value of a payload byte when read back through `std::string::operator[]`,
whose `char` is signed on the reference platform: bytes `>= 0x80` read as
negative values. -/
def charVal (b : Nat) : Int := if b < 128 then (b : Int) else (b : Int) - 256

/-- Translation of `rk_hash` (anonymous namespace of the source): start from 1
and fold `str_hash = str_hash * 997 + str[i]` over the characters, with the
`uint32_t` arithmetic made explicit as `% 2^32` (the result is kept in
`[0, 2^32)`; `Int.emod` by a positive modulus is non-negative). -/
def rk_hash (s : Str) : Int := s.foldl (fun h b => (h * 997 + charVal b) % (2 ^ 32)) 1

/-- Hash fold exactly as claim C8 words it: each byte taken as an unsigned
value in `0..255`, folded with `h = (h * 997 + b) mod 2^32`. -/
def rk_hashClaim (s : Str) : Nat := s.foldl (fun h b => (h * 997 + b) % (2 ^ 32)) 1

/-- Hash fold of the amended claim C8: a byte `b < 128` contributes `b`, a byte
`b >= 128` contributes the wrapped signed-char value `b + (2^32 - 256)`. -/
def rk_hashSigned (s : Str) : Nat :=
  s.foldl (fun h b => (h * 997 + (if b < 128 then b else b + (2 ^ 32 - 256))) % (2 ^ 32)) 1

/-- Output integer widths `T` of `getOrAddBulk<T>`: `uint8_t`, `uint16_t`,
`int32_t`. -/
inductive Width
  | w8
  | w16
  | w32
deriving DecidableEq

/-- Modelled from the spec: `inline_int_null_value<T>` from the missing
`sqltypes.h`.  For the signed `int32_t` the spec fixes the minimum signed
value; for the unsigned narrow widths the value is the maximum of the width
(claim C7's arithmetic: 256 distinct strings through `uint8_t` give 255
non-null codes, so ids `0..254` are usable and `255` is the null). -/
def nullOf : Width → Int
  | .w8 => 255
  | .w16 => 65535
  | .w32 => -(2 ^ 31)

/-- Modelled from the spec: `max_valid_int_value<T>` from the missing
`sqltypes.h` — the first `str_count` at which a new string no longer fits the
width `T` (255 for `uint8_t` per claim C7, 65535 for `uint16_t`, and the
maximum non-null `int32_t` for `int32_t`). -/
def maxValidOf : Width → Nat
  | .w8 => 255
  | .w16 => 65535
  | .w32 => 2 ^ 31 - 2

/-- Numeric conversion applied when the C++ code stores an `int32_t` id into a
`T`-typed output slot (truncation for the unsigned narrow widths, identity on
in-range values for `int32_t`). -/
def castOf : Width → Int → Int
  | .w8, i => i % 256
  | .w16, i => i % 65536
  | .w32, i => (i + 2 ^ 31) % 2 ^ 32 - 2 ^ 31

/-- State of a `StringDictionary` object.  The two memory-mapped files are
abstracted to their live content: `payload` is the byte prefix of
`DictPayload` actually written (so `payload_file_off_ = payload.length`), and
`offsets` is the list of live `StringIdxEntry` records `(off, size)`
(everything beyond them in the file is `0xFF` canary, summarized by reads
returning `none`).  `str_count_` is derived as `offsets.length`: the append
discipline writes record `str_count_` and then increments, keeping the two
equal at every step.  The regex cache and the `copyStrings` snapshot cache are
omitted: no modelled operation reads them. -/
structure Dict where
  mat : Bool
  payload : List Nat
  offsets : List (Nat × Nat)
  strIds : List Int
  rkHashes : List Int
  likeCache : List ((Str × Bool × Bool × Nat) × List Int)
  equalCache : List (Str × Int)
  compareCache : List (Str × (Int × Int))
  sortedCache : List Int
deriving DecidableEq

/-- Derived `str_count_` (see `Dict`). -/
def strCount (d : Dict) : Nat := d.offsets.length

/-- Translation of `getStringFromStorage`: read offset record `string_id`; a
read past the live records hits the `0xFF` canary (`size == 0xffff`) and is
reported as `none`; otherwise the payload bytes `[off, off+size)`. -/
def getStringFromStorage (d : Dict) (id : Nat) : Option Str :=
  match d.offsets[id]? with
  | some ofs => some ((d.payload.drop ofs.1).take ofs.2)
  | none => none

/-- Stored string with the canary read defaulting to the empty byte range,
exactly what the C++ `PayloadString` `{nullptr, 0}` compares as. -/
def storedStrD (d : Dict) (id : Nat) : Str := (getStringFromStorage d id).getD []

/-- Byte comparison the probe performs against a stored id:
`str.size() == old_str.size && !memcmp(...)`, i.e. list equality, with a
canary read comparing as the empty string. -/
def storedEq (d : Dict) (id : Nat) (s : Str) : Bool := storedStrD d id == s

/-- Body of the probe loops: visit `bucket`, else advance to
`(bucket+1) % size` (the source writes `if (++bucket == data.size()) bucket =
0`, the same thing for `bucket < size`).  Fuel bounds the number of probes; the
callers pass `size`, enough to visit every slot once, so running out of fuel
(`none`) is exactly the C++ loop cycling forever. -/
def probeLoop (stop : Nat → Bool) (size : Nat) : Nat → Nat → Option Nat
  | 0, _ => none
  | fuel + 1, bucket =>
    if stop bucket then some bucket else probeLoop stop size fuel ((bucket + 1) % size)

/-- Initial bucket `hash & (data.size() - 1)`. -/
def bucketFor (hash : Int) (size : Nat) : Nat := hash.toNat &&& (size - 1)

/-- Stop condition of `computeBucket`: an `INVALID_STR_ID` slot is available
for use; otherwise (unless `unique`) stop on a stored string equal to `str`,
where materialized hashes screen the payload comparison. -/
def probeStop (d : Dict) (table : List Int) (hash : Int) (s : Str) (unique : Bool)
    (bucket : Nat) : Bool :=
  if table.getD bucket INVALID_STR_ID == INVALID_STR_ID then true
  else if unique then false
  else if d.mat then
    hash == d.rkHashes.getD (table.getD bucket INVALID_STR_ID).toNat 0 &&
      storedEq d (table.getD bucket INVALID_STR_ID).toNat s
  else storedEq d (table.getD bucket INVALID_STR_ID).toNat s

/-- Translation of `computeBucket`. -/
def computeBucket (d : Dict) (hash : Int) (s : Str) (table : List Int) (unique : Bool) :
    Option Nat :=
  probeLoop (probeStop d table hash s unique) table.length table.length
    (bucketFor hash table.length)

/-- Translation of `computeUniqueBucketWithHash`: stop at the first
`INVALID_STR_ID` slot unconditionally. -/
def computeUniqueBucketWithHash (hash : Int) (table : List Int) : Option Nat :=
  probeLoop (fun b => table.getD b INVALID_STR_ID == INVALID_STR_ID) table.length
    table.length (bucketFor hash table.length)

/-- Translation of `fillRateIsHigh`: `str_ids_.size() < str_count_ * 2`. -/
def fillRateIsHigh (d : Dict) : Bool := d.strIds.length < strCount d * 2

/-- One re-bucketing step of `increaseCapacity`: place `id` at its unique
bucket in the new table. -/
def installUnique (table : List Int) (hash : Int) (id : Int) : Option (List Int) :=
  match computeUniqueBucketWithHash hash table with
  | some b => some (table.set b id)
  | none => none

/-- Translation of `increaseCapacity`: double the table; with materialized
hashes re-bucket each live slot of the old table (in slot order) using the
stored hash, and double the hash array (zero-filled growth, as
`vector::resize`); otherwise re-fetch and re-hash ids `0..str_count_-1` (a
canary read here is a failed `CHECK`, hence `none`). -/
def increaseCapacity (d : Dict) : Option Dict :=
  let newIds : List Int := List.replicate (d.strIds.length * 2) INVALID_STR_ID
  if d.mat then do
    let t ← d.strIds.foldlM
      (fun t e =>
        if e == INVALID_STR_ID then pure t
        else installUnique t (d.rkHashes.getD e.toNat 0) e)
      newIds
    pure { d with strIds := t,
                  rkHashes := d.rkHashes ++ List.replicate d.rkHashes.length 0 }
  else do
    let t ← (List.range (strCount d)).foldlM
      (fun t i => do
        let s ← getStringFromStorage d i
        installUnique t (rk_hash s) (Int.ofNat i))
      newIds
    pure { d with strIds := t }

/-- Translation of `appendToStorage`: write the payload bytes at
`payload_file_off_` (the end of the live payload), then the offset record
`(payload_file_off_, str.size())` at slot `str_count_` (the end of the live
records).  File growth and remapping only extend canary capacity and are not
observable in the live content, so they have no model counterpart. -/
def appendToStorage (d : Dict) (s : Str) : Dict :=
  { d with payload := d.payload ++ s,
           offsets := d.offsets ++ [(d.payload.length, s.length)] }

/-- Translation of `invalidateInvertedIndex`: clear the LIKE, regex, equal and
compare caches (the sorted cache is not touched). -/
def invalidateInvertedIndex (d : Dict) : Dict :=
  { d with likeCache := [], equalCache := [], compareCache := [] }

/-- Translation of `getOrAddImpl` (hence of local `get_or_add`).  The empty
string short-circuits to the `int32_t` NULL sentinel.  The read-locked probe
and the re-probe under the write lock act on the same state in this
single-threaded semantics, so they are one `computeBucket` call; a hit returns
the stored id.  On a miss: `CHECK_LT(str_count_, MAX_STRCOUNT)`, resize (and
re-probe) when the fill rate is high, append to storage, install the new id,
and invalidate the scan caches. -/
def getOrAddImpl (d : Dict) (s : Str) : Option (Int × Dict) :=
  if s.length == 0 then some (nullInt32, d)
  else if MAX_STRLEN < s.length then none
  else do
    let hash := rk_hash s
    let bucket ← computeBucket d hash s d.strIds false
    if d.strIds.getD bucket INVALID_STR_ID != INVALID_STR_ID then
      pure (d.strIds.getD bucket INVALID_STR_ID, d)
    else if strCount d < MAX_STRCOUNT then do
      let dd ←
        if fillRateIsHigh d then do
          let d1 ← increaseCapacity d
          let b1 ← computeBucket d1 hash s d1.strIds false
          pure (d1, b1)
        else pure (d, bucket)
      let c := strCount dd.1
      let d2 := appendToStorage dd.1 s
      pure (Int.ofNat c,
        invalidateInvertedIndex
          { d2 with strIds := d2.strIds.set dd.2 (Int.ofNat c),
                    rkHashes := if d2.mat then d2.rkHashes.set c hash else d2.rkHashes })
    else none

/-- One loop iteration of `getOrAddBulk<T>` for one input string: empty
strings encode the `T` NULL, `CHECK(str.size() <= MAX_STRLEN)`, a probe hit
encodes the stored id truncated to `T`, a new string with
`str_count_ == max_valid_int_value<T>()` logs an encoding overflow and encodes
NULL without touching the dictionary, and otherwise the string is appended and
installed as in the single-insert path.  Cache invalidation happens once per
bulk call, in `getOrAddBulk`, not here. -/
def bulkStep (w : Width) (d : Dict) (s : Str) : Option (Int × Dict) :=
  if s.length == 0 then some (nullOf w, d)
  else if MAX_STRLEN < s.length then none
  else do
    let hash := rk_hash s
    let bucket ← computeBucket d hash s d.strIds false
    if d.strIds.getD bucket INVALID_STR_ID != INVALID_STR_ID then
      pure (castOf w (d.strIds.getD bucket INVALID_STR_ID), d)
    else if strCount d == maxValidOf w then pure (nullOf w, d)
    else if strCount d < MAX_STRCOUNT then do
      let dd ←
        if fillRateIsHigh d then do
          let d1 ← increaseCapacity d
          let b1 ← computeBucket d1 hash s d1.strIds false
          pure (d1, b1)
        else pure (d, bucket)
      let c := strCount dd.1
      let d2 := appendToStorage dd.1 s
      pure (castOf w (Int.ofNat c),
        { d2 with strIds := d2.strIds.set dd.2 (Int.ofNat c),
                  rkHashes := if d2.mat then d2.rkHashes.set c hash else d2.rkHashes })
    else none

/-- Loop of `getOrAddBulk<T>` over the input vector, accumulating the encoded
output codes. -/
def bulkGo (w : Width) (d : Dict) (ss : List Str) : Option (List Int × Dict) :=
  ss.foldlM
    (fun acc s => do
      let r ← bulkStep w acc.2 s
      pure (acc.1 ++ [r.1], r.2))
    (([] : List Int), d)

/-- Translation of `getOrAddBulk<T>` (local path): process the whole batch
under the write lock, then invalidate the scan caches once. -/
def getOrAddBulk (w : Width) (d : Dict) (ss : List Str) : Option (List Int × Dict) := do
  let r ← bulkGo w d ss
  pure (r.1, invalidateInvertedIndex r.2)

/-- Translation of `getStringUnlocked` / `getStringChecked` (and so of the
public `getString`): `CHECK_LT(string_id, str_count_)`, then a storage read
that must not see a canary. -/
def getStringUnlocked (d : Dict) (id : Nat) : Option Str :=
  if id < strCount d then getStringFromStorage d id else none

/-- Translation of the public `getString`, whose `int32_t` argument is checked
against `[0, str_count_)` (the lower bound by `CHECK_GE(string_id, 0)` inside
`getStringFromStorage`). -/
def getString (d : Dict) (id : Int) : Option Str :=
  if 0 ≤ id then getStringUnlocked d id.toNat else none

/-- Ids visited by scan worker `w` out of `workers`: `w, w+W, w+2W, ...` below
`generation`, in increasing order. -/
def scanIds (generation workers w : Nat) : List Nat :=
  (List.range generation).filter (fun i => i % workers == w)

/-- Modelled from the spec: `string_like` from the missing
`Utils/StringLike.h` — SQL LIKE where `%` matches any sequence, `_` matches
one byte, and the escape byte makes the next pattern byte literal. -/
def likeMatchF (esc : Nat) : Nat → Str → Str → Bool
  | 0, _, _ => false
  | _ + 1, [], [] => true
  | _ + 1, _ :: _, [] => false
  | f + 1, s, c :: p =>
    if c == esc then
      match p, s with
      | c2 :: p2, a :: as_ => a == c2 && likeMatchF esc f as_ p2
      | _, _ => false
    else if c == 37 then
      likeMatchF esc f s p ||
        (match s with
         | [] => false
         | _ :: as_ => likeMatchF esc f as_ (c :: p))
    else
      match s with
      | a :: as_ => (c == 95 || a == c) && likeMatchF esc f as_ p
      | [] => false

/-- Entry point of the matcher; every recursive call shrinks `s.length +
p.length`, so this fuel always suffices. -/
def likeMatch (esc : Nat) (s p : Str) : Bool := likeMatchF esc (s.length + p.length + 1) s p

/-- Modelled from the spec: lower-casing for the `ilike` variants. -/
def toLowerByte (b : Nat) : Nat := if 65 ≤ b && b ≤ 90 then b + 32 else b

/-- Modelled from the spec: `string_like_simple` treats `%` and `_` literally
except for the anchor semantics — leading/trailing `%` act as substring
anchors, the rest of the pattern is matched byte-literally. -/
def likeMatchSimple (s p : Str) : Bool :=
  let lead := p.takeWhile (fun c => c == 37)
  let p1 := p.dropWhile (fun c => c == 37)
  let trail := p1.reverse.takeWhile (fun c => c == 37)
  let core := (p1.reverse.dropWhile (fun c => c == 37)).reverse
  match lead.isEmpty, trail.isEmpty with
  | true, true => s == core
  | true, false => core.isPrefixOf s
  | false, true => core.isSuffixOf s
  | false, false => (List.range (s.length + 1)).any (fun i => core.isPrefixOf (s.drop i))

/-- Translation of the `is_like` dispatch helper (the four predicate
combinations). -/
def is_like (s p : Str) (icase isSimple : Bool) (esc : Nat) : Bool :=
  let s' := if icase then s.map toLowerByte else s
  let p' := if icase then p.map toLowerByte else p
  if isSimple then likeMatchSimple s' p' else likeMatch esc s' p'

/-- Parallel LIKE scan body of `getLike`: worker `w` filters its ids, worker
results are concatenated in worker order. -/
def likeScan (d : Dict) (p : Str) (icase isSimple : Bool) (esc : Nat)
    (generation workers : Nat) : Option (List Int) :=
  (List.range workers).foldlM
    (fun acc w => do
      let part ← (scanIds generation workers w).filterMapM
        (fun id => do
          let s ← getStringUnlocked d id
          pure (if is_like s p icase isSimple esc then some (Int.ofNat id) else none))
      pure (acc ++ part))
    ([] : List Int)

/-- Translation of `getLike`: the cache on `(pattern, icase, is_simple,
escape)` is consulted before anything else (in particular before
`CHECK_LE(generation, str_count_)`); on a miss the scan runs
(`CHECK_GT(worker_count, 0)`) and the result is cached. -/
def getLike (d : Dict) (p : Str) (icase isSimple : Bool) (esc : Nat)
    (generation workers : Nat) : Option (List Int × Dict) :=
  match d.likeCache.lookup (p, icase, isSimple, esc) with
  | some v => some (v, d)
  | none =>
    if workers == 0 then none
    else if strCount d < generation then none
    else do
      let result ← likeScan d p icase isSimple esc generation workers
      pure (result, { d with likeCache := ((p, icase, isSimple, esc), result) :: d.likeCache })

/-- Parallel equality scan of `getEquals` (no cache entry): worker results,
exact `std::string` equality, concatenated in worker order. -/
def equalsScan (d : Dict) (p : Str) (generation workers : Nat) : Option (List Int) :=
  (List.range workers).foldlM
    (fun acc w => do
      let part ← (scanIds generation workers w).filterMapM
        (fun id => do
          let s ← getStringUnlocked d id
          pure (if s == p then some (Int.ofNat id) else none))
      pure (acc ++ part))
    ([] : List Int)

/-- Ids `0..curSize` INCLUSIVE except `eqId`, as the `<>` loops of `getEquals`
produce (`for (int32_t idx = 0; idx <= cur_size; idx++)`). -/
def neRange (curSize : Nat) (eqId : Int) : List Int :=
  ((List.range (curSize + 1)).map Int.ofNat).filter (fun i => i != eqId)

/-- Translation of `getEquals`.  With a cached equal id: `=` returns it, `<>`
returns `0..cur_size` inclusive minus it.  Otherwise a parallel exact scan
runs (`CHECK_GT(worker_count, 0)`, `CHECK_LE(generation, str_count_)`); a
non-empty result caches its first id; for `<>` the ids `0..cur_size` inclusive
minus `eq_id` are APPENDED to the match result (`eq_id` stays at its
initializer `MAX_STRLEN + 1` when nothing matched). -/
def getEquals (d : Dict) (p : Str) (op : String) (generation workers : Nat) :
    Option (List Int × Dict) :=
  let curSize := strCount d
  match d.equalCache.lookup p with
  | some eqId =>
    if op == "=" then some ([eqId], d) else some (neRange curSize eqId, d)
  | none =>
    if workers == 0 then none
    else if strCount d < generation then none
    else do
      let result ← equalsScan d p generation workers
      let d1 := if result.isEmpty then d
                else { d with equalCache := (p, result.headD 0) :: d.equalCache }
      let eqId : Int := if result.isEmpty then (MAX_STRLEN : Int) + 1 else result.headD 0
      if op == "<>" then some (result ++ neRange curSize eqId, d1)
      else some (result, d1)

/-- Modelled from the spec: `string_lt` from the missing `Utils/StringLike.h`
— byte-wise lexicographic order on the payload bytes. -/
def strLt : Str → Str → Bool
  | [], [] => false
  | [], _ :: _ => true
  | _ :: _, [] => false
  | a :: as_, b :: bs => if a < b then true else if b < a then false else strLt as_ bs

/-- Comparator `std::sort` / `std::lower_bound` use in the sorted cache:
`string_lt` on the stored payload of two ids (a canary read compares as the
empty string, as in the C++ `{nullptr, 0}`). -/
def idLt (d : Dict) (a b : Int) : Bool := strLt (storedStrD d a.toNat) (storedStrD d b.toNat)

/-- Insertion of one element into a list sorted by `le`. -/
def insertSorted (le : Int → Int → Bool) (x : Int) : List Int → List Int
  | [] => [x]
  | y :: ys => if le x y then x :: y :: ys else y :: insertSorted le x ys

/-- Insertion sort by `le`. -/
def sortBy (le : Int → Int → Bool) (l : List Int) : List Int :=
  l.foldr (insertSorted le) []

/-- Translation of `sortCache` (a `std::sort` by `string_lt`): modelled as a
comparison sort by the non-strict companion of the comparator.  The ids being
sorted are distinct and, in any state reachable by insertions, carry distinct
strings, so the comparator is a strict total order there and every comparison
sort — `std::sort` included — produces this same list. -/
def sortCache (d : Dict) (cache : List Int) : List Int :=
  sortBy (fun a b => !(idLt d b a)) cache

/-- Fuel-structured body of `mergeSortedCache`; each step consumes one element
of one of the two lists. -/
def mergeGo (d : Dict) : Nat → List Int → List Int → List Int
  | 0, ts, ss => ts ++ ss
  | _ + 1, [], ss => ss
  | _ + 1, t :: ts, [] => t :: ts
  | f + 1, t :: ts, s :: ss =>
    if idLt d t s then t :: mergeGo d f ts (s :: ss)
    else s :: mergeGo d f (t :: ts) ss

/-- Translation of `mergeSortedCache`: the linear two-pointer merge of the
newly sorted ids into the existing sorted cache. -/
def mergeSortedCache (d : Dict) (ts ss : List Int) : List Int :=
  mergeGo d (ts.length + ss.length) ts ss

/-- Translation of `buildSortedCache`: sort the ids
`[sorted_cache.size(), str_count_)` and merge them in. -/
def buildSortedCache (d : Dict) : Dict :=
  let cur := d.sortedCache.length
  let temp := (List.range' cur (strCount d - cur)).map Int.ofNat
  { d with sortedCache := mergeSortedCache d (sortCache d temp) d.sortedCache }

/-- Position `std::lower_bound` returns on the sorted cache: the first index
whose stored string is not `string_lt` the pattern (on a sorted cache the
binary search and this linear characterization agree). -/
def lowerBoundPos (d : Dict) (p : Str) : Nat :=
  (d.sortedCache.takeWhile (fun a => strLt (storedStrD d a.toNat) p)).length

/-- Value `getCompare` computes into the compare cache on a miss:
`(index, diff)` with `diff = 0` iff the pattern is present at `index`;
otherwise `index` is one below the lower bound (so `-1` when the pattern
precedes everything) or the last position when the pattern follows
everything. -/
def computeCacheIndex (d : Dict) (p : Str) : Int × Int :=
  let pos := lowerBoundPos d p
  if pos == d.sortedCache.length then (Int.ofNat (d.sortedCache.length - 1), 1)
  else if storedStrD d (d.sortedCache.getD pos 0).toNat == p then (Int.ofNat pos, 0)
  else (Int.ofNat pos - 1, 1)

/-- Operator dispatch of `getCompare` once `(index, diff)` is known.  The
loops over `sorted_cache` positions become `take`/`drop`; the `size_t`
arithmetic on `index + 1` agrees with `Int` arithmetic followed by `toNat` in
every reachable case.  Faithfully kept: the dead `cache_index == 0` test of
`<=` (a shared-pointer null test, never true), the `<>` no-match branch that
re-inserts the whole cache `size` times, and the unknown-operator branch whose
`std::runtime_error` is constructed but never thrown (so an empty result). -/
def opResult (d : Dict) (ci : Int × Int) (op : String) : List Int :=
  let sc := d.sortedCache
  let index := ci.1
  let diff := ci.2
  if op == "<" then
    let idx : Int := if diff != 0 then (if index == 0 then index else index + 1) else index
    sc.take idx.toNat
  else if op == "<=" then
    sc.take (index + 1).toNat
  else if op == ">" then
    let idx : Int := if index == 0 && 0 < diff then index else index + 1
    sc.drop idx.toNat
  else if op == ">=" then
    let idx : Int := if diff != 0 then (if index == 0 then index else index + 1) else index
    sc.drop idx.toNat
  else if op == "=" then
    if diff == 0 then [sc.getD index.toNat 0] else []
  else if op == "<>" then
    if diff == 0 then sc.take index.toNat ++ sc.drop (index.toNat + 1)
    else (List.replicate sc.length sc).flatten
  else []

/-- Translation of `getCompare`: empty dictionary short-circuits; a stale
sorted cache sends `=` and `<>` to `getEquals` and otherwise gets rebuilt; the
`(index, diff)` pair is fetched from the compare cache or computed and cached;
then the operator dispatch runs. -/
def getCompare (d : Dict) (p : Str) (op : String) (generation workers : Nat) :
    Option (List Int × Dict) :=
  if strCount d == 0 then some ([], d)
  else if d.sortedCache.length < strCount d && (op == "=" || op == "<>") then
    getEquals d p op generation workers
  else
    let d1 := if d.sortedCache.length < strCount d then buildSortedCache d else d
    match d1.compareCache.lookup p with
    | some ci => some (opResult d1 ci op, d1)
    | none =>
      let ci := computeCacheIndex d1 p
      some (opResult d1 ci op, { d1 with compareCache := (p, ci) :: d1.compareCache })

/-- Translation of `round_up_p2`: the `uint64_t` bit-smearing round-up with
saturation at `UINT32_MAX` (in the model `num >= 1` at every call site, so the
`num - 1` underflow of `uint64_t` zero never arises). -/
def roundUpP2 (num : Nat) : Nat :=
  let i0 := num - 1
  let i1 := i0 ||| i0 >>> 1
  let i2 := i1 ||| i1 >>> 2
  let i3 := i2 ||| i2 >>> 4
  let i4 := i3 ||| i3 >>> 8
  let i5 := i4 ||| i4 >>> 16
  let r := i5 + 1
  if r == 0 || 2 ^ 32 - 1 < r then 2 ^ 32 - 1 else r

/-- Translation of the constructor's non-recover path: a fresh dictionary with
`initial_capacity` table slots of `INVALID_STR_ID` and a zeroed hash array of
the same length (`CHECK` requires the capacity to be a power of two). -/
def freshDict (cap : Nat) (mat : Bool) : Dict :=
  { mat := mat
    payload := []
    offsets := []
    strIds := List.replicate cap INVALID_STR_ID
    rkHashes := List.replicate cap 0
    likeCache := []
    equalCache := []
    compareCache := []
    sortedCache := [] }

/-- Translation of the constructor's `recover` path.  The offset and payload
files are the live records/bytes plus canary tail; `str_count` is bounded by
`file_size / sizeof(StringIdxEntry)` and the chunked async workers each stop
at the first canary record of their chunk, so exactly the live prefix is
recovered, in id order (the sequential fold below is that same order:
futures are drained in submission order and each hash vector in id order).
Each recovered `(hash, size)` pair is installed by `processDictionaryFutures`:
unique bucket in the fresh `round_up_p2(2*str_count+1)`-slot table, slot set
to the running `str_count_`, hash recorded when materialized. -/
def recoverDict (mat : Bool) (offsets : List (Nat × Nat)) (payload : List Nat) :
    Option Dict := do
  let n := offsets.length
  let maxEntries := roundUpP2 (2 * n + 1)
  let d0 : Dict :=
    { mat := mat
      payload := payload
      offsets := offsets
      strIds := List.replicate maxEntries INVALID_STR_ID
      rkHashes := if mat then List.replicate (maxEntries / 2) 0 else []
      likeCache := []
      equalCache := []
      compareCache := []
      sortedCache := [] }
  (List.range n).foldlM
    (fun d i => do
      let s ← getStringFromStorage d0 i
      let b ← computeUniqueBucketWithHash (rk_hash s) d.strIds
      pure { d with strIds := d.strIds.set b (Int.ofNat i),
                    rkHashes := if mat then d.rkHashes.set i (rk_hash s) else d.rkHashes })
    d0

/-- Run a sequence of single `get_or_add` calls, collecting the returned ids. -/
def runInserts (d : Dict) (ss : List Str) : Option (List Int × Dict) :=
  ss.foldlM
    (fun acc s => do
      let r ← getOrAddImpl acc.2 s
      pure (acc.1 ++ [r.1], r.2))
    (([] : List Int), d)

/-! ### Verification layer: auxiliary notions -/

/-- Number of occupied (non-`INVALID_STR_ID`) slots of a bucket table. -/
def occupied (t : List Int) : Nat := t.countP (fun e => e != INVALID_STR_ID)

/-- Offset records describing strings packed consecutively from `off`. -/
def packFrom (off : Nat) : List Str → List (Nat × Nat)
  | [] => []
  | s :: rest => (off, s.length) :: packFrom (off + s.length) rest

/-! ### Basic lemmas about the probe loops -/

theorem length_packFrom (off : Nat) (strs : List Str) :
    (packFrom off strs).length = strs.length := by
  induction strs generalizing off with
  | nil => rfl
  | cons s rest ih => simp [packFrom, ih]

theorem bucketFor_lt (hash : Int) (size : Nat) (h : 0 < size) : bucketFor hash size < size :=
  lt_of_le_of_lt Nat.and_le_right (by omega)

theorem probeLoop_some (stop : Nat → Bool) (size : Nat) :
    ∀ fuel start, start < size → (∃ k, k < fuel ∧ stop ((start + k) % size) = true) →
      ∃ b, probeLoop stop size fuel start = some b ∧ stop b = true ∧ b < size := by
  intro fuel
  induction fuel with
  | zero =>
    rintro start _ ⟨k, hk, _⟩
    omega
  | succ fuel ih =>
    rintro start hstart ⟨k, hk, hstop⟩
    by_cases h : stop start
    · exact ⟨start, by simp [probeLoop, h], h, hstart⟩
    · have hk0 : k ≠ 0 := by
        intro h0
        rw [h0, Nat.add_zero, Nat.mod_eq_of_lt hstart] at hstop
        simp [hstop] at h
      obtain ⟨k1, rfl⟩ : ∃ k1, k = k1 + 1 := ⟨k - 1, by omega⟩
      have hsize : 0 < size := by omega
      have hstart1 : (start + 1) % size < size := Nat.mod_lt _ hsize
      have heq : ((start + 1) % size + k1) % size = (start + (k1 + 1)) % size := by
        rw [Nat.mod_add_mod]
        congr 1
        omega
      obtain ⟨b, hb, hsb, hbs⟩ := ih ((start + 1) % size) hstart1
        ⟨k1, by omega, by rw [heq]; exact hstop⟩
      exact ⟨b, by simp [probeLoop, h, hb], hsb, hbs⟩

theorem probe_rotation (size start j : Nat) (hstart : start < size) (hj : j < size) :
    (start + (size + j - start) % size) % size = j := by
  rw [Nat.add_mod_mod]
  have : start + (size + j - start) = size + j := by omega
  rw [this, Nat.add_mod_left, Nat.mod_eq_of_lt hj]

theorem probe_entry (stop : Nat → Bool) (size start : Nat) (hstart : start < size)
    (hex : ∃ j, j < size ∧ stop j = true) :
    ∃ b, probeLoop stop size size start = some b ∧ stop b = true ∧ b < size := by
  obtain ⟨j, hj, hjs⟩ := hex
  refine probeLoop_some stop size size start hstart
    ⟨(size + j - start) % size, Nat.mod_lt _ (by omega), ?_⟩
  rw [probe_rotation size start j hstart hj]
  exact hjs

theorem exists_empty_slot (t : List Int) (h : occupied t < t.length) :
    ∃ j, j < t.length ∧ t.getD j INVALID_STR_ID = INVALID_STR_ID := by
  by_contra hc
  push_neg at hc
  have hall : ∀ a ∈ t, (a != INVALID_STR_ID) = true := by
    intro a ha
    obtain ⟨n, hn, rfl⟩ := List.mem_iff_getElem.mp ha
    have hcn := hc n hn
    rw [List.getD_eq_getElem t INVALID_STR_ID hn] at hcn
    simpa using hcn
  rw [occupied, List.countP_eq_length.mpr hall] at h
  omega

theorem computeUniqueBucketWithHash_spec (hash : Int) (t : List Int)
    (hempty : ∃ j, j < t.length ∧ t.getD j INVALID_STR_ID = INVALID_STR_ID) :
    ∃ b, computeUniqueBucketWithHash hash t = some b ∧ b < t.length ∧
      t.getD b INVALID_STR_ID = INVALID_STR_ID := by
  obtain ⟨j, hj, hjv⟩ := hempty
  have hpos : 0 < t.length := by omega
  have hbeq : (t.getD j INVALID_STR_ID == INVALID_STR_ID) = true := by rw [hjv]; decide
  obtain ⟨b, hb, hsb, hbl⟩ :=
    probe_entry (fun b => t.getD b INVALID_STR_ID == INVALID_STR_ID) t.length
      (bucketFor hash t.length) (bucketFor_lt hash _ hpos) ⟨j, hj, hbeq⟩
  exact ⟨b, hb, hbl, by simpa using hsb⟩

theorem computeBucket_spec (d : Dict) (hash : Int) (s : Str) (t : List Int) (unique : Bool)
    (hempty : ∃ j, j < t.length ∧ t.getD j INVALID_STR_ID = INVALID_STR_ID) :
    ∃ b, computeBucket d hash s t unique = some b ∧ b < t.length ∧
      (t.getD b INVALID_STR_ID = INVALID_STR_ID ∨
        (t.getD b INVALID_STR_ID ≠ INVALID_STR_ID ∧ unique = false ∧
          storedEq d (t.getD b INVALID_STR_ID).toNat s = true)) := by
  obtain ⟨j, hj, hjv⟩ := hempty
  have hpos : 0 < t.length := by omega
  have hbeq : (t.getD j INVALID_STR_ID == INVALID_STR_ID) = true := by rw [hjv]; decide
  obtain ⟨b, hb, hsb, hbl⟩ := probe_entry (probeStop d t hash s unique) t.length
    (bucketFor hash t.length) (bucketFor_lt hash _ hpos)
    ⟨j, hj, by unfold probeStop; rw [if_pos hbeq]⟩
  refine ⟨b, hb, hbl, ?_⟩
  by_cases he : t.getD b INVALID_STR_ID = INVALID_STR_ID
  · exact Or.inl he
  · right
    refine ⟨he, ?_⟩
    have hsb1 : probeStop d t hash s unique b = true := hsb
    unfold probeStop at hsb1
    rw [if_neg (by simpa using he)] at hsb1
    cases unique with
    | true => simp at hsb1
    | false =>
      refine ⟨rfl, ?_⟩
      rw [if_neg (by simp)] at hsb1
      cases hm : d.mat with
      | true =>
        rw [hm, if_pos rfl, Bool.and_eq_true] at hsb1
        exact hsb1.2
      | false =>
        rw [hm, if_neg (by simp)] at hsb1
        exact hsb1

/-! ### Claims C2, C8, C10 -/

/-- Claim C2: for every prior dictionary state, `get_or_add("")` returns the
`int32_t` NULL sentinel with the state unchanged (nothing appended, no slot
filled, `str_count` unchanged), and a bulk `get_or_add_bulk<T>` element that
is the empty string encodes the `T` NULL sentinel, also leaving the state
unchanged. -/
theorem claim_C2 (d : Dict) (w : Width) :
    getOrAddImpl d [] = some (nullInt32, d) ∧ bulkStep w d [] = some (nullOf w, d) :=
  ⟨rfl, rfl⟩

theorem rk_hash_foldNat (s : Str) : ∀ a : Nat,
    s.foldl (fun h b => (h * 997 + charVal b) % (2 ^ 32)) (a : Int) =
      ((s.foldl (fun h b => (h * 997 + (if b < 128 then b else b + (2 ^ 32 - 256))) % (2 ^ 32))
          a : Nat) : Int) := by
  induction s with
  | nil => intro a; rfl
  | cons b bs ih =>
    intro a
    simp only [List.foldl_cons]
    have hstep : ((a : Int) * 997 + charVal b) % (2 ^ 32) =
        ((a * 997 + (if b < 128 then b else b + (2 ^ 32 - 256))) % (2 ^ 32) : Nat) := by
      unfold charVal
      split <;> push_cast <;> omega
    rw [hstep]
    exact ih _

/-- Claim C8, counterexample: on the one-byte string `0x80` the source hash is
`(997 - 128) mod 2^32 = 869`, not the `(997 + 128) mod 2^32 = 1125` the claim's
unsigned-byte fold produces — `std::string::operator[]` yields a signed char. -/
theorem claim_C8_cex : rk_hash [128] ≠ (rk_hashClaim [128] : Int) := by decide

/-- Claim C8, amended: `rk_hash(s)` equals the fold that starts with `h = 1`
and, for each byte `b` of `s`, sets `h = (h * 997 + v) mod 2^32` where `v` is
the signed-char value of the byte: `v = b` for `b < 128` and the wrapped
`v = b + (2^32 - 256)` for `b ≥ 128`. -/
theorem claim_C8 (s : Str) : rk_hash s = (rk_hashSigned s : Int) := by
  unfold rk_hash rk_hashSigned
  have h1 : (1 : Int) = ((1 : Nat) : Int) := rfl
  rw [h1, rk_hash_foldNat]

/-- Claim C10: when the bucket array's length is a nonzero power of two and at
least one slot holds `INVALID_STR_ID`, both probe procedures terminate with a
slot index below the table length; `computeUniqueBucketWithHash` returns an
empty slot, and `computeBucket` (with `unique = false`) returns a slot that is
either empty or holds an id whose stored bytes compare equal to `s`. -/
theorem claim_C10 (d : Dict) (hash : Int) (s : Str) (t : List Int) (k : Nat)
    (_hpow : t.length = 2 ^ k)
    (hempty : ∃ j, j < t.length ∧ t.getD j INVALID_STR_ID = INVALID_STR_ID) :
    (∃ b, computeBucket d hash s t false = some b ∧ b < t.length ∧
        (t.getD b INVALID_STR_ID = INVALID_STR_ID ∨
          storedEq d (t.getD b INVALID_STR_ID).toNat s = true)) ∧
    (∃ b, computeUniqueBucketWithHash hash t = some b ∧ b < t.length ∧
        t.getD b INVALID_STR_ID = INVALID_STR_ID) := by
  constructor
  · obtain ⟨b, hb, hbl, hcase⟩ := computeBucket_spec d hash s t false hempty
    exact ⟨b, hb, hbl, hcase.imp id (fun h => h.2.2)⟩
  · exact computeUniqueBucketWithHash_spec hash t hempty

theorem claim_C10_witness :
    (∃ b, computeBucket (freshDict 4 false) 5 [97] [-1, -1] false = some b ∧ b < 2 ∧
        (([-1, -1] : List Int).getD b INVALID_STR_ID = INVALID_STR_ID ∨
          storedEq (freshDict 4 false) (([-1, -1] : List Int).getD b INVALID_STR_ID).toNat
            [97] = true)) ∧
    (∃ b, computeUniqueBucketWithHash 5 [-1, -1] = some b ∧ b < 2 ∧
        ([-1, -1] : List Int).getD b INVALID_STR_ID = INVALID_STR_ID) :=
  claim_C10 (freshDict 4 false) 5 [97] [-1, -1] 1 (by decide) ⟨0, by decide, by decide⟩

/-! ### Storage packing lemmas -/

theorem pack_read (strs : List Str) : ∀ (pre : List Nat) (i : Nat) (hi : i < strs.length),
    ∃ off, (packFrom pre.length strs)[i]? = some (off, strs[i].length) ∧
      ((pre ++ strs.flatten).drop off).take strs[i].length = strs[i] := by
  induction strs with
  | nil =>
    intro pre i hi
    simp at hi
  | cons s rest ih =>
    intro pre i hi
    cases i with
    | zero =>
      refine ⟨pre.length, by simp [packFrom], ?_⟩
      simp only [List.getElem_cons_zero, List.flatten_cons]
      rw [List.drop_left, List.take_left]
    | succ j =>
      have hj : j < rest.length := by simpa using hi
      obtain ⟨off, h1, h2⟩ := ih (pre ++ s) j hj
      rw [List.length_append] at h1
      refine ⟨off, ?_, ?_⟩
      · simpa [packFrom] using h1
      · rw [List.flatten_cons, ← List.append_assoc]
        simpa using h2

theorem packFrom_append (xs ys : List Str) : ∀ off,
    packFrom off (xs ++ ys) = packFrom off xs ++ packFrom (off + xs.flatten.length) ys := by
  induction xs with
  | nil => intro off; simp [packFrom]
  | cons x xs ih =>
    intro off
    simp only [List.cons_append, packFrom, List.append_eq, List.flatten_cons,
      List.length_append, ih]
    rw [Nat.add_assoc]

/-! ### The reachable-state invariant `Models` -/

/-- Abstraction relation: dictionary state `d` stores exactly the strings
`strs` (ids in list order) with a consistent bucket table.  `fill` is the
bound the resize policy actually maintains: the table holds at least
`2*(str_count - 1)` slots. -/
structure Models (d : Dict) (strs : List Str) : Prop where
  offs : d.offsets = packFrom 0 strs
  pay : d.payload = strs.flatten
  pow : ∃ k, d.strIds.length = 2 ^ k
  big : 4 ≤ d.strIds.length
  entries : ∀ e ∈ d.strIds, e = INVALID_STR_ID ∨ ∃ id : Nat, id < strs.length ∧ e = Int.ofNat id
  occ : occupied d.strIds = strs.length
  fill : 2 * strs.length ≤ d.strIds.length + 2

theorem Models.count {d : Dict} {strs : List Str} (M : Models d strs) :
    strCount d = strs.length := by
  rw [strCount, M.offs, length_packFrom]

theorem Models.read {d : Dict} {strs : List Str} (M : Models d strs) (i : Nat)
    (hi : i < strs.length) : getStringFromStorage d i = some strs[i] := by
  obtain ⟨off, h1, h2⟩ := pack_read strs [] i hi
  rw [List.length_nil] at h1
  rw [List.nil_append] at h2
  unfold getStringFromStorage
  rw [M.offs, M.pay, h1]
  exact congrArg some h2

theorem Models.storedStrD_eq {d : Dict} {strs : List Str} (M : Models d strs) (i : Nat)
    (hi : i < strs.length) : storedStrD d i = strs[i] := by
  rw [storedStrD, M.read i hi]
  rfl

theorem Models.occLt {d : Dict} {strs : List Str} (M : Models d strs) :
    occupied d.strIds < d.strIds.length := by
  have h1 := M.occ
  have h2 := M.fill
  have h3 := M.big
  omega

theorem Models.probe_any {d : Dict} {strs : List Str} (M : Models d strs) (hash : Int)
    (s : Str) :
    ∃ b, computeBucket d hash s d.strIds false = some b ∧ b < d.strIds.length := by
  obtain ⟨b, hb, hbl, _⟩ := computeBucket_spec d hash s d.strIds false
    (exists_empty_slot _ M.occLt)
  exact ⟨b, hb, hbl⟩

theorem Models.probe_miss {d : Dict} {strs : List Str} (M : Models d strs) (hash : Int)
    {s : Str} (hnot : s ∉ strs) :
    ∃ b, computeBucket d hash s d.strIds false = some b ∧ b < d.strIds.length ∧
      d.strIds.getD b INVALID_STR_ID = INVALID_STR_ID := by
  obtain ⟨b, hb, hbl, hcase⟩ := computeBucket_spec d hash s d.strIds false
    (exists_empty_slot _ M.occLt)
  refine ⟨b, hb, hbl, ?_⟩
  rcases hcase with he | ⟨hne, _, hmatch⟩
  · exact he
  · exfalso
    have hmem : d.strIds.getD b INVALID_STR_ID ∈ d.strIds := by
      rw [List.getD_eq_getElem d.strIds INVALID_STR_ID hbl]
      exact List.getElem_mem hbl
    rcases M.entries _ hmem with hinv | ⟨id, hidlt, hide⟩
    · exact hne hinv
    · rw [hide] at hmatch
      rw [storedEq] at hmatch
      have htn : (Int.ofNat id).toNat = id := rfl
      rw [htn, M.storedStrD_eq id hidlt] at hmatch
      have : strs[id] = s := by simpa using hmatch
      exact hnot (this ▸ List.getElem_mem hidlt)

/-! ### Install and resize lemmas -/

theorem occupied_replicate (n : Nat) : occupied (List.replicate n INVALID_STR_ID) = 0 := by
  rw [occupied, List.countP_replicate]
  simp

theorem occupied_set (t : List Int) (b : Nat) (id : Int) (hb : b < t.length)
    (hempty : t.getD b INVALID_STR_ID = INVALID_STR_ID) (hid : id ≠ INVALID_STR_ID) :
    occupied (t.set b id) = occupied t + 1 := by
  unfold occupied
  rw [List.countP_set _ t b id hb]
  have hsb : t[b] = INVALID_STR_ID := by
    rw [← List.getD_eq_getElem t INVALID_STR_ID hb]
    exact hempty
  rw [hsb]
  have h1 : ((INVALID_STR_ID != INVALID_STR_ID) = true) = False := by simp
  have h2 : (id != INVALID_STR_ID) = true := by simpa using hid
  simp [h2]

theorem installUnique_spec (t : List Int) (hash : Int) (id : Int)
    (hocc : occupied t < t.length) (hid : id ≠ INVALID_STR_ID) :
    ∃ t1, installUnique t hash id = some t1 ∧ t1.length = t.length ∧
      occupied t1 = occupied t + 1 ∧ ∀ e ∈ t1, e = id ∨ e ∈ t := by
  obtain ⟨b, hb, hbl, hbe⟩ :=
    computeUniqueBucketWithHash_spec hash t (exists_empty_slot t hocc)
  refine ⟨t.set b id, ?_, List.length_set t b id, occupied_set t b id hbl hbe hid, ?_⟩
  · rw [installUnique, hb]
  · intro e he
    exact (List.mem_or_eq_of_mem_set he).symm

/-- Invariant carried through the re-bucketing fold of the
materialized-hashes branch of `increaseCapacity`. -/
theorem foldInstall_mat (P : Int → Prop) (hf : Int → Int) :
    ∀ (es : List Int) (t : List Int),
      (∀ e ∈ es, e = INVALID_STR_ID ∨ P e) →
      occupied t + es.countP (fun e => e != INVALID_STR_ID) ≤ t.length →
      (∀ e ∈ t, e = INVALID_STR_ID ∨ P e) →
      ∃ t1,
        es.foldlM
          (fun t e => if e == INVALID_STR_ID then pure t else installUnique t (hf e) e) t
          = some t1 ∧
        t1.length = t.length ∧
        occupied t1 = occupied t + es.countP (fun e => e != INVALID_STR_ID) ∧
        ∀ e ∈ t1, e = INVALID_STR_ID ∨ P e := by
  intro es
  induction es with
  | nil =>
    intro t _ _ ht
    exact ⟨t, rfl, rfl, by simp [List.countP_nil], ht⟩
  | cons e es ih =>
    intro t hes hcap ht
    by_cases he : e = INVALID_STR_ID
    · have hcnt : (e :: es).countP (fun e => e != INVALID_STR_ID) =
          es.countP (fun e => e != INVALID_STR_ID) := by
        rw [List.countP_cons]
        simp [he]
      rw [hcnt] at hcap
      obtain ⟨t1, hfold, hlen, hocc, hent⟩ := ih t (fun x hx => hes x (by simp [hx])) hcap ht
      refine ⟨t1, ?_, hlen, by rw [hcnt]; exact hocc, hent⟩
      rw [List.foldlM_cons]
      have : (e == INVALID_STR_ID) = true := by simpa using he
      rw [this]
      simpa using hfold
    · have hcnt : (e :: es).countP (fun e => e != INVALID_STR_ID) =
          es.countP (fun e => e != INVALID_STR_ID) + 1 := by
        rw [List.countP_cons]
        simp [he]
      rw [hcnt] at hcap
      obtain ⟨t1, hins, hlen1, hocc1, hsub1⟩ :=
        installUnique_spec t (hf e) e (by omega) he
      have hPe : P e := by
        rcases hes e (by simp) with h | h
        · exact absurd h he
        · exact h
      obtain ⟨t2, hfold, hlen2, hocc2, hent2⟩ := ih t1
        (fun x hx => hes x (by simp [hx]))
        (by rw [hlen1, hocc1]; omega)
        (fun x hx => by
          rcases hsub1 x hx with h | h
          · exact Or.inr (h ▸ hPe)
          · exact ht x h)
      refine ⟨t2, ?_, by rw [hlen2, hlen1], by rw [hocc2, hocc1, hcnt]; omega, hent2⟩
      rw [List.foldlM_cons]
      have : (e == INVALID_STR_ID) = false := by simpa using he
      rw [this]
      simp only [Bool.false_eq_true, if_false]
      rw [hins]
      simpa using hfold

/-- Invariant carried through the re-hash-and-re-bucket fold of the
non-materialized branch of `increaseCapacity`. -/
theorem foldInstall_range (dRead : Dict) (P : Int → Prop) :
    ∀ (l : List Nat) (t : List Int),
      (∀ i ∈ l, ∃ si, getStringFromStorage dRead i = some si) →
      (∀ i ∈ l, P (Int.ofNat i)) →
      occupied t + l.length ≤ t.length →
      (∀ e ∈ t, e = INVALID_STR_ID ∨ P e) →
      ∃ t1,
        l.foldlM
          (fun t i => do
            let s ← getStringFromStorage dRead i
            installUnique t (rk_hash s) (Int.ofNat i)) t = some t1 ∧
        t1.length = t.length ∧
        occupied t1 = occupied t + l.length ∧
        ∀ e ∈ t1, e = INVALID_STR_ID ∨ P e := by
  intro l
  induction l with
  | nil =>
    intro t _ _ _ ht
    exact ⟨t, rfl, rfl, by simp, ht⟩
  | cons i l ih =>
    intro t hread hP hcap ht
    obtain ⟨si, hsi⟩ := hread i (by simp)
    obtain ⟨t1, hins, hlen1, hocc1, hsub1⟩ :=
      installUnique_spec t (rk_hash si) (Int.ofNat i)
        (by simp at hcap; omega) (by simp [INVALID_STR_ID])
    obtain ⟨t2, hfold, hlen2, hocc2, hent2⟩ := ih t1
      (fun x hx => hread x (by simp [hx]))
      (fun x hx => hP x (by simp [hx]))
      (by rw [hlen1, hocc1]; simp at hcap; omega)
      (fun x hx => by
        rcases hsub1 x hx with h | h
        · exact Or.inr (h ▸ hP i (by simp))
        · exact ht x h)
    refine ⟨t2, ?_, by rw [hlen2, hlen1], by rw [hocc2, hocc1]; simp; omega, hent2⟩
    rw [List.foldlM_cons]
    have hfti : getStringFromStorage dRead i >>=
        (fun s => installUnique t (rk_hash s) (Int.ofNat i)) = some t1 := by
      rw [hsi]
      exact hins
    show getStringFromStorage dRead i >>=
        (fun s => installUnique t (rk_hash s) (Int.ofNat i)) >>=
        (fun init => List.foldlM
          (fun t i => do
            let s ← getStringFromStorage dRead i
            installUnique t (rk_hash s) (Int.ofNat i)) init l) = some t2
    rw [hfti]
    exact hfold

theorem increaseCapacity_spec (d : Dict) (strs : List Str) (M : Models d strs) :
    ∃ t1 rk1, increaseCapacity d = some { d with strIds := t1, rkHashes := rk1 } ∧
      t1.length = d.strIds.length * 2 ∧
      occupied t1 = strs.length ∧
      (∀ e ∈ t1, e = INVALID_STR_ID ∨ ∃ id : Nat, id < strs.length ∧ e = Int.ofNat id) := by
  have hocc := M.occ
  have hlt := M.occLt
  have hrepl : occupied (List.replicate (d.strIds.length * 2) INVALID_STR_ID) = 0 :=
    occupied_replicate _
  have hreplLen : (List.replicate (d.strIds.length * 2) INVALID_STR_ID).length =
      d.strIds.length * 2 := List.length_replicate _ _
  have hreplEnt : ∀ e ∈ (List.replicate (d.strIds.length * 2) INVALID_STR_ID),
      e = INVALID_STR_ID ∨ ∃ id : Nat, id < strs.length ∧ e = Int.ofNat id := by
    intro e he
    exact Or.inl (List.eq_of_mem_replicate he)
  cases hm : d.mat with
  | true =>
    obtain ⟨t1, hfold, hlen, hocc1, hent1⟩ :=
      foldInstall_mat (fun e => ∃ id : Nat, id < strs.length ∧ e = Int.ofNat id)
        (fun e => d.rkHashes.getD e.toNat 0) d.strIds
        (List.replicate (d.strIds.length * 2) INVALID_STR_ID)
        M.entries
        (by rw [hrepl, hreplLen]; rw [occupied] at hocc hlt; omega)
        hreplEnt
    refine ⟨t1, d.rkHashes ++ List.replicate d.rkHashes.length 0, ?_, ?_, ?_, hent1⟩
    · rw [increaseCapacity, hm]
      simp only [if_pos]
      rw [hfold]
      rfl
    · rw [hlen, hreplLen]
    · rw [hocc1, hrepl]
      rw [occupied] at hocc
      omega
  | false =>
    obtain ⟨t1, hfold, hlen, hocc1, hent1⟩ :=
      foldInstall_range d (fun e => ∃ id : Nat, id < strs.length ∧ e = Int.ofNat id)
        (List.range (strCount d))
        (List.replicate (d.strIds.length * 2) INVALID_STR_ID)
        (by
          intro i hi
          rw [List.mem_range, M.count] at hi
          exact ⟨strs[i], M.read i hi⟩)
        (by
          intro i hi
          rw [List.mem_range, M.count] at hi
          exact ⟨i, hi, rfl⟩)
        (by rw [hrepl, hreplLen, List.length_range, M.count]; omega)
        hreplEnt
    refine ⟨t1, d.rkHashes, ?_, ?_, ?_, hent1⟩
    · rw [increaseCapacity, hm]
      simp only [Bool.false_eq_true, if_false]
      rw [hfold]
      rfl
    · rw [hlen, hreplLen]
    · rw [hocc1, hrepl, List.length_range, M.count]
      omega

/-! ### The effect of inserting a new string -/

theorem Models.invalidate {d : Dict} {strs : List Str} (M : Models d strs) :
    Models (invalidateInvertedIndex d) strs :=
  ⟨M.offs, M.pay, M.pow, M.big, M.entries, M.occ, M.fill⟩

/-- The dictionary produced by the shared append-and-install tail of
`getOrAddImpl` / `getOrAddBulk` once the insert position `(dd.1, dd.2)` is
fixed. -/
def installAt (dd : Dict × Nat) (s : Str) : Dict :=
  { appendToStorage dd.1 s with
      strIds := (appendToStorage dd.1 s).strIds.set dd.2 (Int.ofNat (strCount dd.1)),
      rkHashes :=
        if (appendToStorage dd.1 s).mat then
          (appendToStorage dd.1 s).rkHashes.set (strCount dd.1) (rk_hash s)
        else (appendToStorage dd.1 s).rkHashes }

theorem installAt_models (dd : Dict × Nat) (s : Str) (strs : List Str)
    (M : Models dd.1 strs) (hbl : dd.2 < dd.1.strIds.length)
    (hbe : dd.1.strIds.getD dd.2 INVALID_STR_ID = INVALID_STR_ID)
    (hfill2 : 2 * (strs.length + 1) ≤ dd.1.strIds.length + 2) :
    Models (installAt dd s) (strs ++ [s]) := by
  have happ : (appendToStorage dd.1 s).strIds = dd.1.strIds := rfl
  refine ⟨?_, ?_, ?_, ?_, ?_, ?_, ?_⟩
  · show dd.1.offsets ++ [(dd.1.payload.length, s.length)] = packFrom 0 (strs ++ [s])
    rw [M.offs, M.pay, packFrom_append, List.length_flatten]
    simp [packFrom]
  · show dd.1.payload ++ s = (strs ++ [s]).flatten
    rw [M.pay, List.flatten_append]
    simp
  · obtain ⟨k, hk⟩ := M.pow
    exact ⟨k, by simpa [installAt] using hk⟩
  · have := M.big
    simpa [installAt] using this
  · intro e he
    simp only [installAt, happ] at he
    rcases List.mem_or_eq_of_mem_set he with h | h
    · rcases M.entries e h with h1 | ⟨id, hid, hide⟩
      · exact Or.inl h1
      · exact Or.inr ⟨id, by simp; omega, hide⟩
    · refine Or.inr ⟨strs.length, by simp, ?_⟩
      rw [h, M.count]
  · show occupied (dd.1.strIds.set dd.2 (Int.ofNat (strCount dd.1))) = (strs ++ [s]).length
    rw [occupied_set dd.1.strIds dd.2 _ hbl hbe (by simp [INVALID_STR_ID]), M.occ]
    simp
  · show 2 * (strs ++ [s]).length ≤ (dd.1.strIds.set dd.2 (Int.ofNat (strCount dd.1))).length + 2
    rw [List.length_set, List.length_append]
    simpa using hfill2

/-- Evaluation of the resize-or-keep block on a miss, with `Models`
re-established for the state it returns and a free slot in hand. -/
theorem missResize (d : Dict) (strs : List Str) (s : Str) (M : Models d strs)
    (hnot : s ∉ strs) (b : Nat)
    (hbe : d.strIds.getD b INVALID_STR_ID = INVALID_STR_ID) (hbl : b < d.strIds.length) :
    ∃ dd : Dict × Nat,
      Models dd.1 strs ∧ strCount dd.1 = strs.length ∧
      dd.2 < dd.1.strIds.length ∧
      dd.1.strIds.getD dd.2 INVALID_STR_ID = INVALID_STR_ID ∧
      2 * (strs.length + 1) ≤ dd.1.strIds.length + 2 ∧
      ∀ (β : Type) (f : Dict × Nat → Option β),
        (if fillRateIsHigh d = true then
          Option.bind (increaseCapacity d) (fun d1 =>
            Option.bind (computeBucket d1 (rk_hash s) s d1.strIds false) (fun b1 =>
              Option.bind (pure (d1, b1)) f))
        else Option.bind (pure (d, b)) f) = f dd := by
  cases hfill : fillRateIsHigh d with
  | false =>
    refine ⟨(d, b), M, M.count, hbl, hbe, ?_, ?_⟩
    · rw [fillRateIsHigh] at hfill
      have hge : ¬ (d.strIds.length < strCount d * 2) := by simpa using hfill
      rw [M.count] at hge
      show 2 * (strs.length + 1) ≤ d.strIds.length + 2
      omega
    · intro β f
      rfl
  | true =>
    obtain ⟨t1, rk1, hinc, hlen1, hocc1, hent1⟩ := increaseCapacity_spec d strs M
    have M1 : Models { d with strIds := t1, rkHashes := rk1 } strs := by
      obtain ⟨k, hk⟩ := M.pow
      refine ⟨M.offs, M.pay, ⟨k + 1, by rw [hlen1, hk]; ring⟩, ?_, hent1, hocc1, ?_⟩
      · show 4 ≤ t1.length
        have := M.big
        omega
      · show 2 * strs.length ≤ t1.length + 2
        have h1 := M.occLt
        have h2 := M.occ
        omega
    obtain ⟨b1, hb1, hbl1, hbe1⟩ := M1.probe_miss (rk_hash s) hnot
    refine ⟨({ d with strIds := t1, rkHashes := rk1 }, b1), M1, M1.count, hbl1, hbe1, ?_, ?_⟩
    · have h1 := M.occLt
      have h2 := M.occ
      show 2 * (strs.length + 1) ≤ t1.length + 2
      omega
    · intro β f
      rw [if_pos rfl, hinc]
      simp only [Option.some_bind]
      rw [hb1]
      simp only [Option.some_bind]
      rfl

theorem getOrAddImpl_new (d : Dict) (strs : List Str) (s : Str) (M : Models d strs)
    (hs : s ≠ []) (hlen : s.length ≤ MAX_STRLEN) (hnot : s ∉ strs)
    (hcnt : strs.length < MAX_STRCOUNT) :
    ∃ dd : Dict × Nat,
      getOrAddImpl d s = some (Int.ofNat strs.length, invalidateInvertedIndex (installAt dd s))
        ∧ Models (invalidateInvertedIndex (installAt dd s)) (strs ++ [s]) := by
  obtain ⟨b, hb, hbl, hbe⟩ := M.probe_miss (rk_hash s) hnot
  obtain ⟨dd, M2, hc2, hbl2, hbe2, hfill2, hcont⟩ := missResize d strs s M hnot b hbe hbl
  refine ⟨dd, ?_, (installAt_models dd s strs M2 hbl2 hbe2 hfill2).invalidate⟩
  have h0 : (s.length == 0) = false := by
    simp only [beq_eq_false_iff_ne, ne_eq]
    intro h
    exact hs (List.length_eq_zero.mp h)
  have h1 : ¬ MAX_STRLEN < s.length := not_lt.mpr hlen
  have h2 : (d.strIds.getD b INVALID_STR_ID != INVALID_STR_ID) = false := by
    rw [hbe]
    decide
  have h3 : strCount d < MAX_STRCOUNT := by
    rw [M.count]
    exact hcnt
  simp only [getOrAddImpl, h0, Bool.false_eq_true, if_false, h1, hb, Option.bind_eq_bind,
    Option.some_bind, h2, h3, if_true]
  refine (hcont _ _).trans ?_
  show some (Int.ofNat (strCount dd.1), invalidateInvertedIndex (installAt dd s)) = _
  rw [hc2]

/-! ### Running a sequence of inserts; claim C1 -/

theorem runGo (ss : List Str) : ∀ (acc : List Int) (d : Dict) (strs : List Str),
    Models d strs → (strs ++ ss).Nodup →
    (∀ x ∈ ss, x ≠ [] ∧ x.length ≤ MAX_STRLEN) →
    strs.length + ss.length ≤ MAX_STRCOUNT →
    ∃ d1, ss.foldlM (fun acc s => do
        let r ← getOrAddImpl acc.2 s
        pure (acc.1 ++ [r.1], r.2)) (acc, d)
      = some (acc ++ (List.range' strs.length ss.length).map Int.ofNat, d1) ∧
      Models d1 (strs ++ ss) := by
  induction ss with
  | nil =>
    intro acc d strs M _ _ _
    exact ⟨d, by simp, by simpa using M⟩
  | cons s ss ih =>
    intro acc d strs M hnd hval hcnt
    have hsplit : strs ++ s :: ss = (strs ++ [s]) ++ ss := by simp
    have hnot : s ∉ strs := by
      obtain ⟨_, _, hdisj⟩ := List.nodup_append.mp hnd
      intro hmem
      exact hdisj hmem (by simp)
    obtain ⟨hs, hlen⟩ := hval s (by simp)
    obtain ⟨dd, heq, MD⟩ := getOrAddImpl_new d strs s M hs hlen hnot
      (by simp at hcnt; omega)
    obtain ⟨d1, hrun, M1⟩ := ih (acc ++ [Int.ofNat strs.length])
      (invalidateInvertedIndex (installAt dd s)) (strs ++ [s]) MD
      (by rw [← hsplit]; exact hnd)
      (fun x hx => hval x (by simp [hx]))
      (by simp at hcnt ⊢; omega)
    refine ⟨d1, ?_, by rw [hsplit]; exact M1⟩
    rw [List.foldlM_cons, heq]
    simp only [Option.pure_def, Option.bind_eq_bind, Option.some_bind] at hrun ⊢
    rw [hrun]
    simp [List.range'_succ]

theorem freshDict_models (k : Nat) (hk : 2 ≤ k) (mat : Bool) :
    Models (freshDict (2 ^ k) mat) [] := by
  refine ⟨rfl, rfl, ⟨k, List.length_replicate _ _⟩, ?_, ?_, occupied_replicate _, by simp⟩
  · show 4 ≤ (List.replicate (2 ^ k) INVALID_STR_ID).length
    rw [List.length_replicate]
    calc 4 = 2 ^ 2 := rfl
    _ ≤ 2 ^ k := Nat.pow_le_pow_right (by omega) hk
  · intro e he
    exact Or.inl (List.eq_of_mem_replicate he)

theorem Models.getString_eq {d : Dict} {strs : List Str} (M : Models d strs) (i : Nat) :
    getString d (Int.ofNat i) = strs[i]? := by
  have h0 : (0 : Int) ≤ Int.ofNat i := Int.natCast_nonneg i
  rw [getString, if_pos h0]
  have ht : (Int.ofNat i).toNat = i := rfl
  rw [ht, getStringUnlocked]
  by_cases hi : i < strCount d
  · rw [if_pos hi, M.read i (by rw [← M.count]; exact hi)]
    rw [List.getElem?_eq_getElem (by rw [← M.count]; exact hi)]
  · rw [if_neg hi]
    symm
    rw [List.getElem?_eq_none]
    rw [← M.count]
    omega

/-- Claim C1: inserting distinct non-empty strings (lengths at most
`MAX_STRLEN`, at most `MAX_STRCOUNT` of them) in order into a freshly opened
dictionary (any power-of-two capacity of at least 4) returns the ids
`0..n-1` in order, and afterwards `get_string(i)` returns the `i`-th string
(and is defined exactly on `[0, n)`). -/
theorem claim_C1 (k : Nat) (mat : Bool) (ss : List Str) (hk : 2 ≤ k) (hnd : ss.Nodup)
    (hval : ∀ x ∈ ss, x ≠ [] ∧ x.length ≤ MAX_STRLEN) (hcnt : ss.length ≤ MAX_STRCOUNT) :
    ∃ d1, runInserts (freshDict (2 ^ k) mat) ss =
        some ((List.range ss.length).map Int.ofNat, d1) ∧
      ∀ i : Nat, getString d1 (Int.ofNat i) = ss[i]? := by
  obtain ⟨d1, hrun, M1⟩ := runGo ss [] (freshDict (2 ^ k) mat) [] (freshDict_models k hk mat)
    (by simpa using hnd) hval (by simpa using hcnt)
  have M1' : Models d1 ss := by simpa using M1
  refine ⟨d1, ?_, fun i => M1'.getString_eq i⟩
  rw [runInserts, List.range_eq_range']
  simpa using hrun

theorem claim_C1_witness :
    ∃ d1, runInserts (freshDict (2 ^ 2) false)
        [[97, 112, 112, 108, 101], [98, 97, 110, 97, 110, 97], [99, 104, 101, 114, 114, 121]] =
        some ((List.range 3).map Int.ofNat, d1) ∧
      ∀ i : Nat, getString d1 (Int.ofNat i) =
        [[97, 112, 112, 108, 101], [98, 97, 110, 97, 110, 97],
          [99, 104, 101, 114, 114, 121]][i]? :=
  claim_C1 2 false
    [[97, 112, 112, 108, 101], [98, 97, 110, 97, 110, 97], [99, 104, 101, 114, 114, 121]]
    (by decide) (by decide) (by decide) (by decide)

/-! ### Bulk insertion lemmas -/

theorem bulkStep_new (w : Width) (d : Dict) (strs : List Str) (s : Str) (M : Models d strs)
    (hs : s ≠ []) (hlen : s.length ≤ MAX_STRLEN) (hnot : s ∉ strs)
    (hov : strs.length ≠ maxValidOf w) (hcnt : strs.length < MAX_STRCOUNT) :
    ∃ dd : Dict × Nat,
      bulkStep w d s = some (castOf w (Int.ofNat strs.length), installAt dd s) ∧
      Models (installAt dd s) (strs ++ [s]) := by
  obtain ⟨b, hb, hbl, hbe⟩ := M.probe_miss (rk_hash s) hnot
  obtain ⟨dd, M2, hc2, hbl2, hbe2, hfill2, hcont⟩ := missResize d strs s M hnot b hbe hbl
  refine ⟨dd, ?_, installAt_models dd s strs M2 hbl2 hbe2 hfill2⟩
  have h0 : (s.length == 0) = false := by
    simp only [beq_eq_false_iff_ne, ne_eq]
    intro h
    exact hs (List.length_eq_zero.mp h)
  have h1 : ¬ MAX_STRLEN < s.length := not_lt.mpr hlen
  have h2 : (d.strIds.getD b INVALID_STR_ID != INVALID_STR_ID) = false := by
    rw [hbe]
    decide
  have hov' : (strCount d == maxValidOf w) = false := by
    rw [M.count]
    simpa using hov
  have h3 : strCount d < MAX_STRCOUNT := by
    rw [M.count]
    exact hcnt
  simp only [bulkStep, h0, Bool.false_eq_true, if_false, h1, hb, Option.bind_eq_bind,
    Option.some_bind, h2, hov', h3, if_true]
  refine (hcont _ _).trans ?_
  show some (castOf w (Int.ofNat (strCount dd.1)), installAt dd s) = _
  rw [hc2]

theorem bulkStep_overflow (w : Width) (d : Dict) (strs : List Str) (s : Str)
    (M : Models d strs) (hs : s ≠ []) (hlen : s.length ≤ MAX_STRLEN) (hnot : s ∉ strs)
    (hov : strs.length = maxValidOf w) :
    bulkStep w d s = some (nullOf w, d) := by
  obtain ⟨b, hb, hbl, hbe⟩ := M.probe_miss (rk_hash s) hnot
  have h0 : (s.length == 0) = false := by
    simp only [beq_eq_false_iff_ne, ne_eq]
    intro h
    exact hs (List.length_eq_zero.mp h)
  have h1 : ¬ MAX_STRLEN < s.length := not_lt.mpr hlen
  have h2 : (d.strIds.getD b INVALID_STR_ID != INVALID_STR_ID) = false := by
    rw [hbe]
    decide
  have hov' : (strCount d == maxValidOf w) = true := by
    rw [M.count]
    simpa using hov
  simp only [bulkStep, h0, Bool.false_eq_true, if_false, h1, hb, Option.bind_eq_bind,
    Option.some_bind, h2, hov', if_true]
  rfl

/-- Phase-1 bulk run: as long as the width has room for every input, the bulk
loop assigns the next ids in order. -/
theorem bulkGo_fill (w : Width) (ss : List Str) : ∀ (acc : List Int) (d : Dict)
    (strs : List Str), Models d strs → (strs ++ ss).Nodup →
    (∀ x ∈ ss, x ≠ [] ∧ x.length ≤ MAX_STRLEN) →
    strs.length + ss.length ≤ maxValidOf w →
    strs.length + ss.length ≤ MAX_STRCOUNT →
    ∃ d1, ss.foldlM (fun acc s => do
        let r ← bulkStep w acc.2 s
        pure (acc.1 ++ [r.1], r.2)) (acc, d)
      = some (acc ++ (List.range' strs.length ss.length).map
          (fun i => castOf w (Int.ofNat i)), d1) ∧
      Models d1 (strs ++ ss) := by
  induction ss with
  | nil =>
    intro acc d strs M _ _ _ _
    exact ⟨d, by simp, by simpa using M⟩
  | cons s ss ih =>
    intro acc d strs M hnd hval hov hcnt
    have hsplit : strs ++ s :: ss = (strs ++ [s]) ++ ss := by simp
    have hnot : s ∉ strs := by
      obtain ⟨_, _, hdisj⟩ := List.nodup_append.mp hnd
      intro hmem
      exact hdisj hmem (by simp)
    obtain ⟨hs, hlen⟩ := hval s (by simp)
    obtain ⟨dd, heq, MD⟩ := bulkStep_new w d strs s M hs hlen hnot
      (by simp at hov; omega) (by simp at hcnt; omega)
    obtain ⟨d1, hrun, M1⟩ := ih (acc ++ [castOf w (Int.ofNat strs.length)])
      (installAt dd s) (strs ++ [s]) MD
      (by rw [← hsplit]; exact hnd)
      (fun x hx => hval x (by simp [hx]))
      (by simp at hov ⊢; omega)
      (by simp at hcnt ⊢; omega)
    refine ⟨d1, ?_, by rw [hsplit]; exact M1⟩
    rw [List.foldlM_cons, heq]
    simp only [Option.pure_def, Option.bind_eq_bind, Option.some_bind] at hrun ⊢
    rw [hrun]
    simp [List.range'_succ]

/-- Phase-2 bulk run: once `str_count` sits at the width's maximum valid
value, every further new string encodes NULL and the state never changes. -/
theorem bulkGo_sat (w : Width) (ss : List Str) : ∀ (acc : List Int) (d : Dict)
    (strs : List Str), Models d strs → strs.length = maxValidOf w →
    (∀ x ∈ ss, x ∉ strs ∧ x ≠ [] ∧ x.length ≤ MAX_STRLEN) →
    ss.foldlM (fun acc s => do
        let r ← bulkStep w acc.2 s
        pure (acc.1 ++ [r.1], r.2)) (acc, d)
      = some (acc ++ List.replicate ss.length (nullOf w), d) := by
  induction ss with
  | nil =>
    intro acc d strs _ _ _
    simp
  | cons s ss ih =>
    intro acc d strs M hov hval
    obtain ⟨hnot, hs, hlen⟩ := hval s (by simp)
    have heq := bulkStep_overflow w d strs s M hs hlen hnot hov
    have hih := ih (acc ++ [nullOf w]) d strs M hov (fun x hx => hval x (by simp [hx]))
    rw [List.foldlM_cons, heq]
    simp only [Option.pure_def, Option.bind_eq_bind, Option.some_bind] at hih ⊢
    rw [hih]
    simp [List.replicate_succ]

/-! ### Claim C7 -/

/-- Claim C7: bulk-inserting 256 distinct non-empty strings (each of length at
most `MAX_STRLEN`) into an empty dictionary through `get_or_add_bulk<u8>`
writes the 255 codes `0..254` followed by exactly one `u8` NULL sentinel, the
overflowing string is not added (the stored strings are exactly the first
255), and `str_count` ends at 255. -/
theorem claim_C7 (k : Nat) (mat : Bool) (ss : List Str) (hk : 2 ≤ k) (hnd : ss.Nodup)
    (hval : ∀ x ∈ ss, x ≠ [] ∧ x.length ≤ MAX_STRLEN) (hlen : ss.length = 256) :
    ∃ d1, getOrAddBulk .w8 (freshDict (2 ^ k) mat) ss =
        some ((List.range 255).map Int.ofNat ++ [nullOf .w8], d1) ∧
      strCount d1 = 255 ∧
      ∀ i : Nat, getString d1 (Int.ofNat i) = (ss.take 255)[i]? := by
  have htl : (ss.take 255).length = 255 := by
    rw [List.length_take, hlen]
    omega
  have hdl : (ss.drop 255).length = 1 := by
    rw [List.length_drop, hlen]
  have hsplit : ss.take 255 ++ ss.drop 255 = ss := List.take_append_drop 255 ss
  have hndsplit : (ss.take 255 ++ ss.drop 255).Nodup := by rw [hsplit]; exact hnd
  obtain ⟨d1, hrun1, M1⟩ := bulkGo_fill .w8 (ss.take 255) [] (freshDict (2 ^ k) mat) []
    (freshDict_models k hk mat)
    (by simpa using (List.take_sublist 255 ss).nodup hnd)
    (fun x hx => hval x (List.take_subset 255 ss hx))
    (by rw [htl]; rfl)
    (by rw [htl]; decide)
  simp only [List.length_nil, List.nil_append, htl] at hrun1
  have M1' : Models d1 (ss.take 255) := by simpa using M1
  have hrun2 := bulkGo_sat .w8 (ss.drop 255)
    ((List.range' 0 255).map (fun i => castOf .w8 (Int.ofNat i)))
    d1 (ss.take 255) M1' (by rw [htl]; rfl)
    (by
      intro x hx
      obtain ⟨_, _, hdisj⟩ := List.nodup_append.mp hndsplit
      refine ⟨fun hmem => hdisj hmem hx, hval x ?_⟩
      rw [← hsplit]
      exact List.mem_append_right _ hx)
  have hmap : (List.range' 0 255).map (fun i => castOf .w8 (Int.ofNat i))
      = (List.range 255).map Int.ofNat := by
    rw [List.range_eq_range']
    refine List.map_congr_left ?_
    intro a ha
    rw [List.mem_range'] at ha
    obtain ⟨i, hi, rfl⟩ := ha
    show Int.ofNat (0 + 1 * i) % 256 = Int.ofNat (0 + 1 * i)
    refine Int.emod_eq_of_lt (Int.natCast_nonneg _) ?_
    have h256 : 0 + 1 * i < 256 := by omega
    rw [Int.ofNat_eq_natCast]
    exact_mod_cast h256
  refine ⟨invalidateInvertedIndex d1, ?_, ?_, ?_⟩
  · rw [getOrAddBulk, bulkGo, ← hsplit, List.foldlM_append, hrun1]
    simp only [Option.pure_def, Option.bind_eq_bind, Option.some_bind] at hrun2 ⊢
    rw [hrun2, hmap, hdl]
    simp
  · rw [show strCount (invalidateInvertedIndex d1) = strCount d1 from rfl, M1'.count, htl]
  · intro i
    exact (M1'.invalidate.getString_eq i)

/-! ### Claim C3 -/

/-- Mixed bulk run: with distinct valid inputs the bulk loop always succeeds
and leaves a state satisfying `Models` (strings may stop being added once the
width's capacity is reached; the invariant holds either way). -/
theorem bulkGo_any (w : Width) (ss : List Str) : ∀ (acc : List Int) (d : Dict)
    (strs : List Str), Models d strs → (strs ++ ss).Nodup →
    (∀ x ∈ ss, x ≠ [] ∧ x.length ≤ MAX_STRLEN) →
    strs.length + ss.length ≤ MAX_STRCOUNT →
    ∃ r : (List Int × Dict), ∃ strs1,
      ss.foldlM (fun acc s => do
        let r ← bulkStep w acc.2 s
        pure (acc.1 ++ [r.1], r.2)) (acc, d) = some r ∧
      Models r.2 strs1 := by
  induction ss with
  | nil =>
    intro acc d strs M _ _ _
    exact ⟨(acc, d), strs, rfl, M⟩
  | cons s ss ih =>
    intro acc d strs M hnd hval hcnt
    have hnot : s ∉ strs := by
      obtain ⟨_, _, hdisj⟩ := List.nodup_append.mp hnd
      intro hmem
      exact hdisj hmem (by simp)
    obtain ⟨hs, hlen⟩ := hval s (by simp)
    by_cases hmax : strs.length = maxValidOf w
    · have heq := bulkStep_overflow w d strs s M hs hlen hnot hmax
      have hnd' : (strs ++ ss).Nodup :=
        ((List.Sublist.append_left (List.sublist_cons_self s ss) strs).nodup) hnd
      obtain ⟨r, strs1, hrun, M1⟩ := ih (acc ++ [nullOf w]) d strs M hnd'
        (fun x hx => hval x (by simp [hx])) (by simp at hcnt; omega)
      refine ⟨r, strs1, ?_, M1⟩
      rw [List.foldlM_cons, heq]
      simp only [Option.pure_def, Option.bind_eq_bind, Option.some_bind] at hrun ⊢
      exact hrun
    · obtain ⟨dd, heq, MD⟩ := bulkStep_new w d strs s M hs hlen hnot hmax
        (by simp at hcnt; omega)
      have hsplit : strs ++ s :: ss = (strs ++ [s]) ++ ss := by simp
      obtain ⟨r, strs1, hrun, M1⟩ := ih (acc ++ [castOf w (Int.ofNat strs.length)])
        (installAt dd s) (strs ++ [s]) MD
        (by rw [← hsplit]; exact hnd)
        (fun x hx => hval x (by simp [hx]))
        (by simp at hcnt ⊢; omega)
      refine ⟨r, strs1, ?_, M1⟩
      rw [List.foldlM_cons, heq]
      simp only [Option.pure_def, Option.bind_eq_bind, Option.some_bind] at hrun ⊢
      exact hrun

/-- Concrete final state of inserting `"a","b","c"` into a fresh capacity-4
dictionary: three entries in a 4-slot table. -/
def fillCexDict : Dict :=
  { mat := false
    payload := [97, 98, 99]
    offsets := [(0, 1), (1, 1), (2, 1)]
    strIds := [2, -1, 0, 1]
    rkHashes := [0, 0, 0, 0]
    likeCache := []
    equalCache := []
    compareCache := []
    sortedCache := [] }

/-- Claim C3, counterexample: after inserting three distinct one-byte strings
into a freshly opened capacity-4 dictionary, the bucket array still has 4
slots while `2 * str_count = 6` — the table is 75% full right after a
successful insert, so `index.len() >= 2 * str_count` does not hold after every
insert.  (`fillRateIsHigh` compares against the pre-insert count, so the
doubling happens one insert later than the claim requires.) -/
theorem claim_C3_cex :
    runInserts (freshDict 4 false) [[97], [98], [99]] = some ([0, 1, 2], fillCexDict) ∧
      fillCexDict.strIds.length < 2 * strCount fillCexDict := by
  constructor
  · decide
  · decide

/-- Claim C3, amended: after a run of inserts of distinct valid strings —
through single `get_or_add` calls or one `get_or_add_bulk<T>` call — the
bucket array length is a power of two and is at least `2 * str_count - 2`
(the table is at most 50% full just before each install, not after it). -/
theorem claim_C3 (k : Nat) (mat : Bool) (ss : List Str) (hk : 2 ≤ k) (hnd : ss.Nodup)
    (hval : ∀ x ∈ ss, x ≠ [] ∧ x.length ≤ MAX_STRLEN) (hcnt : ss.length ≤ MAX_STRCOUNT) :
    (∃ r : (List Int × Dict), runInserts (freshDict (2 ^ k) mat) ss = some r ∧
      (∃ m, r.2.strIds.length = 2 ^ m) ∧ 2 * strCount r.2 ≤ r.2.strIds.length + 2) ∧
    ∀ w, ∃ r : (List Int × Dict), getOrAddBulk w (freshDict (2 ^ k) mat) ss = some r ∧
      (∃ m, r.2.strIds.length = 2 ^ m) ∧ 2 * strCount r.2 ≤ r.2.strIds.length + 2 := by
  constructor
  · obtain ⟨d1, hrun, M1⟩ := runGo ss [] (freshDict (2 ^ k) mat) []
      (freshDict_models k hk mat) (by simpa using hnd) hval (by simpa using hcnt)
    have M1' : Models d1 ([] ++ ss) := M1
    refine ⟨_, hrun, M1'.pow, ?_⟩
    rw [M1'.count]
    exact M1'.fill
  · intro w
    obtain ⟨r, strs1, hrun, M1⟩ := bulkGo_any w ss [] (freshDict (2 ^ k) mat) []
      (freshDict_models k hk mat) (by simpa using hnd) hval (by simpa using hcnt)
    refine ⟨(r.1, invalidateInvertedIndex r.2), ?_, M1.invalidate.pow, ?_⟩
    · rw [getOrAddBulk, bulkGo, hrun]
      rfl
    · rw [show strCount (invalidateInvertedIndex r.2) = strCount r.2 from rfl, M1.count]
      exact M1.fill

theorem claim_C3_witness :
    ((∃ r : (List Int × Dict), runInserts (freshDict (2 ^ 2) false) [[97], [98], [99]] = some r ∧
      (∃ m, r.2.strIds.length = 2 ^ m) ∧ 2 * strCount r.2 ≤ r.2.strIds.length + 2) ∧
    ∀ w, ∃ r : (List Int × Dict),
      getOrAddBulk w (freshDict (2 ^ 2) false) [[97], [98], [99]] = some r ∧
      (∃ m, r.2.strIds.length = 2 ^ m) ∧ 2 * strCount r.2 ≤ r.2.strIds.length + 2) :=
  claim_C3 2 false [[97], [98], [99]] (by decide) (by decide) (by decide) (by decide)

set_option maxRecDepth 40000 in
theorem claim_C7_witness :
    ∃ d1, getOrAddBulk .w8 (freshDict (2 ^ 2) false) ((List.range 256).map (fun b => [b])) =
        some ((List.range 255).map Int.ofNat ++ [nullOf .w8], d1) ∧
      strCount d1 = 255 ∧
      ∀ i : Nat, getString d1 (Int.ofNat i) =
        (((List.range 256).map (fun b => [b])).take 255)[i]? :=
  claim_C7 2 false ((List.range 256).map (fun b => [b])) (by decide) (by decide) (by decide)
    (by decide)

/-! ### Claim C9: the LIKE cache ignores the generation argument -/

/-- Claim C9: the cache key of `getLike` is only
`(pattern, icase, is_simple, escape)`.  After any `getLike` call has returned
a vector `v` (caching it if it was not cached), an immediately following call
with the same 4-tuple and ANY generation `g2 ≤ str_count` (and any worker
count) returns exactly `v` and leaves the state unchanged. -/
theorem getLike_cacheHit (d : Dict) (p : Str) (ic isSimple : Bool) (esc gen w : Nat)
    (v : List Int) (hl : d.likeCache.lookup (p, ic, isSimple, esc) = some v) :
    getLike d p ic isSimple esc gen w = some (v, d) := by
  unfold getLike
  rw [hl]

theorem claim_C9 (d : Dict) (p : Str) (ic isSimple : Bool) (esc : Nat)
    (g1 g2 workers workers2 : Nat) (v : List Int) (d1 : Dict)
    (h1 : getLike d p ic isSimple esc g1 workers = some (v, d1))
    (hg2 : g2 ≤ strCount d1) :
    getLike d1 p ic isSimple esc g2 workers2 = some (v, d1) := by
  cases hl : d.likeCache.lookup (p, ic, isSimple, esc) with
  | some v0 =>
    have h1' : some (v0, d) = some (v, d1) := by
      rw [← h1]
      unfold getLike
      rw [hl]
    have hpair := Option.some.inj h1'
    have hv : v0 = v := congrArg Prod.fst hpair
    have hd : d = d1 := congrArg Prod.snd hpair
    subst hd
    rw [← hv]
    exact getLike_cacheHit d p ic isSimple esc g2 workers2 v0 hl
  | none =>
    have h1' : (if workers == 0 then (none : Option (List Int × Dict))
        else if strCount d < g1 then none
        else Option.bind (likeScan d p ic isSimple esc g1 workers) (fun result =>
          some (result,
            { d with likeCache := ((p, ic, isSimple, esc), result) :: d.likeCache })))
        = some (v, d1) := by
      rw [← h1]
      unfold getLike
      rw [hl]
      rfl
    split at h1'
    · exact absurd h1' (by simp)
    · split at h1'
      · exact absurd h1' (by simp)
      · cases hscan : likeScan d p ic isSimple esc g1 workers with
        | none =>
          rw [hscan] at h1'
          exact absurd h1' (by simp)
        | some res =>
          rw [hscan, Option.some_bind] at h1'
          have hpair := Option.some.inj h1'
          have hv : res = v := congrArg Prod.fst hpair
          have hd : ({ d with likeCache := ((p, ic, isSimple, esc), res) :: d.likeCache }
              : Dict) = d1 := congrArg Prod.snd hpair
          subst hd
          rw [← hv]
          apply getLike_cacheHit
          show List.lookup (p, ic, isSimple, esc)
              (((p, ic, isSimple, esc), res) :: d.likeCache) = some res
          rw [List.lookup_cons]
          simp

def likeDemoDict : Dict :=
  { mat := false
    payload := [97, 98]
    offsets := [(0, 1), (1, 1)]
    strIds := [-1, -1, -1, -1]
    rkHashes := [0, 0, 0, 0]
    likeCache := []
    equalCache := []
    compareCache := []
    sortedCache := [] }

def likeDemoDict1 : Dict :=
  { likeDemoDict with likeCache := [(([37], false, false, 92), [0, 1])] }

/-- Witness for C9 at a concrete state: the first call ran with generation 2
and cached `[0, 1]`; the repeat call with the smaller generation 1 (and a
different worker count) still returns `[0, 1]`, which contains the id `1 ≥
g2`. -/
theorem claim_C9_witness :
    getLike likeDemoDict1 [37] false false 92 1 5 = some ([0, 1], likeDemoDict1) :=
  claim_C9 likeDemoDict [37] false false 92 2 1 1 5 [0, 1] likeDemoDict1 (by decide)
    (by decide)

/-! ### Claim C4: recovery -/

theorem testBit_or_shift (x w t : Nat) :
    ((x ||| x >>> w).testBit t = true) ↔ (x.testBit t = true ∨ x.testBit (t + w) = true) := by
  rw [Nat.testBit_lor, Nat.testBit_shiftRight, Nat.add_comm w t]
  simp

theorem smear_step (m x w : Nat)
    (hx : ∀ t, x.testBit t = true ↔ ∃ i, i < w ∧ m.testBit (t + i) = true) :
    ∀ t, ((x ||| x >>> w).testBit t = true) ↔ ∃ i, i < 2 * w ∧ m.testBit (t + i) = true := by
  intro t
  rw [testBit_or_shift]
  constructor
  · rintro (h | h)
    · obtain ⟨i, hi, hbit⟩ := (hx t).mp h
      exact ⟨i, by omega, hbit⟩
    · obtain ⟨i, hi, hbit⟩ := (hx (t + w)).mp h
      refine ⟨w + i, by omega, ?_⟩
      have harr : t + (w + i) = t + w + i := by omega
      rw [harr]
      exact hbit
  · rintro ⟨i, hi, hbit⟩
    by_cases hiw : i < w
    · exact Or.inl ((hx t).mpr ⟨i, hiw, hbit⟩)
    · refine Or.inr ((hx (t + w)).mpr ⟨i - w, by omega, ?_⟩)
      have harr : t + w + (i - w) = t + i := by omega
      rw [harr]
      exact hbit

/-- Correctness of `round_up_p2` in the range recovery uses it on: the result
is a power of two at least the argument. -/
theorem roundUpP2_spec (x : Nat) (h1 : 1 ≤ x) (h2 : x ≤ 2 ^ 31) :
    ∃ k, roundUpP2 x = 2 ^ k ∧ x ≤ roundUpP2 x := by
  set m := x - 1 with hm
  have hmlt : m < 2 ^ 31 := by omega
  set t1 := m ||| m >>> 1 with ht1v
  set t2 := t1 ||| t1 >>> 2 with ht2v
  set t3 := t2 ||| t2 >>> 4 with ht3v
  set t4 := t3 ||| t3 >>> 8 with ht4v
  set t5 := t4 ||| t4 >>> 16 with ht5v
  have hq1 : ∀ t, m.testBit t = true ↔ ∃ i, i < 1 ∧ m.testBit (t + i) = true := by
    intro t
    constructor
    · intro h
      exact ⟨0, by omega, by simpa using h⟩
    · rintro ⟨i, hi, hbit⟩
      have hz : i = 0 := by omega
      rw [hz] at hbit
      simpa using hbit
  have hq2 := smear_step m m 1 hq1
  have hq4 := smear_step m t1 2 hq2
  have hq8 := smear_step m t2 4 hq4
  have hq16 := smear_step m t3 8 hq8
  have hq32 := smear_step m t4 16 hq16
  have hup : ∀ t, 31 ≤ t → m.testBit t = false := by
    intro t ht
    exact Nat.testBit_lt_two_pow
      (lt_of_lt_of_le hmlt (Nat.pow_le_pow_right (by omega) ht))
  have hs5up : ∀ t, 31 ≤ t → t5.testBit t = false := by
    intro t ht
    cases hb : t5.testBit t with
    | false => rfl
    | true =>
      obtain ⟨i, _, hbit⟩ := (hq32 t).mp hb
      rw [hup (t + i) (by omega)] at hbit
      exact absurd hbit (by simp)
  have hslt : t5 < 2 ^ 31 := by
    refine Nat.lt_of_testBit 31 (hs5up 31 le_rfl) Nat.testBit_two_pow_self ?_
    intro j hj
    rw [hs5up j (by omega), Nat.testBit_two_pow_of_ne (by omega)]
  have hge : m ≤ t5 :=
    Nat.le_of_testBit (fun t ht => (hq32 t).mpr ⟨0, by omega, by simpa using ht⟩)
  have hcl : ∀ t, t5.testBit (t + 1) = true → t5.testBit t = true := by
    intro t h
    obtain ⟨i, hi, hbit⟩ := (hq32 (t + 1)).mp h
    by_cases hcase : i + 1 < 32
    · refine (hq32 t).mpr ⟨i + 1, hcase, ?_⟩
      have harr : t + (i + 1) = t + 1 + i := by omega
      rw [harr]
      exact hbit
    · rw [hup (t + 1 + i) (by omega)] at hbit
      exact absurd hbit (by simp)
  have hpow2 : ∃ k, t5 + 1 = 2 ^ k := by
    by_cases h0 : t5 = 0
    · exact ⟨0, by rw [h0]; decide⟩
    · obtain ⟨j, hjt, hjf⟩ := Nat.exists_most_significant_bit h0
      have hdes : ∀ u t, t ≤ u → t5.testBit u = true → t5.testBit t = true := by
        intro u
        induction u with
        | zero =>
          intro t ht hu
          rw [Nat.le_zero.mp ht]
          exact hu
        | succ u ihu =>
          intro t ht hu
          rcases Nat.lt_or_ge t (u + 1) with hlt | hge2
          · exact ihu t (by omega) (hcl u hu)
          · have ht' : t = u + 1 := by omega
            rw [ht']
            exact hu
      have heq : t5 = 2 ^ (j + 1) - 1 := by
        apply Nat.eq_of_testBit_eq
        intro t
        rw [Nat.testBit_two_pow_sub_one]
        rcases Nat.lt_or_ge t (j + 1) with hlt | hge2
        · rw [hdes j t (by omega) hjt]
          simp [hlt]
        · rw [hjf t (by omega)]
          simp
          omega
      refine ⟨j + 1, ?_⟩
      rw [heq]
      have hone : 1 ≤ 2 ^ (j + 1) := Nat.one_le_two_pow
      omega
  obtain ⟨k, hk⟩ := hpow2
  have hru : roundUpP2 x = t5 + 1 := by
    show (if (t5 + 1 == 0) || decide (2 ^ 32 - 1 < t5 + 1) then 2 ^ 32 - 1 else t5 + 1)
      = t5 + 1
    have hc1 : (t5 + 1 == 0) = false := by simp
    have hc2 : ¬ (2 ^ 32 - 1 < t5 + 1) := by omega
    rw [hc1, decide_eq_false hc2]
    rfl
  exact ⟨k, by rw [hru, hk], by omega⟩

theorem read_of_pack (d : Dict) (strs : List Str) (hoffs : d.offsets = packFrom 0 strs)
    (hpay : d.payload = strs.flatten) (i : Nat) (hi : i < strs.length) :
    getStringFromStorage d i = some strs[i] := by
  obtain ⟨off, hg1, hg2⟩ := pack_read strs [] i hi
  rw [List.length_nil] at hg1
  rw [List.nil_append] at hg2
  unfold getStringFromStorage
  rw [hoffs, hpay, hg1]
  exact congrArg some hg2

theorem getString_of_pack (d : Dict) (strs : List Str) (hoffs : d.offsets = packFrom 0 strs)
    (hpay : d.payload = strs.flatten) (i : Nat) :
    getString d (Int.ofNat i) = strs[i]? := by
  have hcount : strCount d = strs.length := by rw [strCount, hoffs, length_packFrom]
  have h0 : (0 : Int) ≤ Int.ofNat i := Int.natCast_nonneg i
  rw [getString, if_pos h0]
  have ht : (Int.ofNat i).toNat = i := rfl
  rw [ht, getStringUnlocked]
  by_cases hi : i < strCount d
  · rw [if_pos hi, read_of_pack d strs hoffs hpay i (by rw [← hcount]; exact hi)]
    rw [List.getElem?_eq_getElem (by rw [← hcount]; exact hi)]
  · rw [if_neg hi]
    symm
    rw [List.getElem?_eq_none]
    rw [← hcount]
    omega

/-- The recovery install fold succeeds whenever the reads succeed and the
table keeps a free slot, and it never touches storage or the cache fields. -/
theorem foldRecover (dR : Dict) (mat : Bool) : ∀ (l : List Nat) (d : Dict),
    (∀ i ∈ l, ∃ si, getStringFromStorage dR i = some si) →
    occupied d.strIds + l.length ≤ d.strIds.length →
    ∃ dF, l.foldlM (fun d i => do
        let s ← getStringFromStorage dR i
        let b ← computeUniqueBucketWithHash (rk_hash s) d.strIds
        pure { d with strIds := d.strIds.set b (Int.ofNat i),
                      rkHashes := if mat then d.rkHashes.set i (rk_hash s)
                        else d.rkHashes }) d
      = some dF ∧ dF.offsets = d.offsets ∧ dF.payload = d.payload := by
  intro l
  induction l with
  | nil =>
    intro d _ _
    exact ⟨d, rfl, rfl, rfl⟩
  | cons i l ih =>
    intro d hread hcap
    obtain ⟨si, hsi⟩ := hread i (by simp)
    have hocc : occupied d.strIds < d.strIds.length := by
      simp at hcap
      omega
    obtain ⟨b, hb, hbl, hbe⟩ :=
      computeUniqueBucketWithHash_spec (rk_hash si) d.strIds (exists_empty_slot _ hocc)
    have hocc1 : occupied (d.strIds.set b (Int.ofNat i)) = occupied d.strIds + 1 :=
      occupied_set d.strIds b (Int.ofNat i) hbl hbe (by simp [INVALID_STR_ID])
    obtain ⟨dF, hfold, hoffsF, hpayF⟩ := ih
      { d with strIds := d.strIds.set b (Int.ofNat i),
               rkHashes := if mat then d.rkHashes.set i (rk_hash si) else d.rkHashes }
      (fun x hx => hread x (by simp [hx]))
      (by
        show occupied (d.strIds.set b (Int.ofNat i)) + l.length
          ≤ (d.strIds.set b (Int.ofNat i)).length
        rw [hocc1, List.length_set]
        simp at hcap
        omega)
    refine ⟨dF, ?_, hoffsF, hpayF⟩
    rw [List.foldlM_cons, hsi]
    simp only [Option.pure_def, Option.bind_eq_bind, Option.some_bind] at hfold ⊢
    rw [hb]
    simp only [Option.some_bind]
    exact hfold

/-- Claim C4 (recovery fidelity): a write session that inserts distinct valid
strings and persists its offset/payload content is reopened by the recovery
constructor with the same `str_count` and the identical id-to-string mapping
(with either setting of `materialize_hashes` on reopen). -/
theorem claim_C4 (k : Nat) (mat mat2 : Bool) (ss : List Str) (hk : 2 ≤ k)
    (hnd : ss.Nodup) (hval : ∀ x ∈ ss, x ≠ [] ∧ x.length ≤ MAX_STRLEN)
    (hcnt : ss.length ≤ MAX_STRCOUNT) :
    ∃ r : (List Int × Dict), runInserts (freshDict (2 ^ k) mat) ss = some r ∧
    ∃ rd, recoverDict mat2 r.2.offsets r.2.payload = some rd ∧
      strCount rd = ss.length ∧
      ∀ i : Nat, getString rd (Int.ofNat i) = ss[i]? := by
  obtain ⟨d1, hrun, M1⟩ := runGo ss [] (freshDict (2 ^ k) mat) []
    (freshDict_models k hk mat) (by simpa using hnd) hval (by simpa using hcnt)
  have M1' : Models d1 ss := by simpa using M1
  refine ⟨_, hrun, ?_⟩
  have hn : d1.offsets.length = ss.length := by
    rw [M1'.offs, length_packFrom]
  have hx1 : 1 ≤ 2 * d1.offsets.length + 1 := by omega
  have hx2 : 2 * d1.offsets.length + 1 ≤ 2 ^ 31 := by
    rw [hn]
    have := hcnt
    rw [MAX_STRCOUNT] at this
    omega
  obtain ⟨kk, hkk, hkge⟩ := roundUpP2_spec (2 * d1.offsets.length + 1) hx1 hx2
  set d0 : Dict :=
    { mat := mat2
      payload := d1.payload
      offsets := d1.offsets
      strIds := List.replicate (roundUpP2 (2 * d1.offsets.length + 1)) INVALID_STR_ID
      rkHashes := if mat2 then
          List.replicate (roundUpP2 (2 * d1.offsets.length + 1) / 2) 0 else []
      likeCache := []
      equalCache := []
      compareCache := []
      sortedCache := [] } with hd0
  obtain ⟨dF, hfold, hoffsF, hpayF⟩ := foldRecover d0 mat2 (List.range d1.offsets.length) d0
    (by
      intro i hi
      rw [List.mem_range] at hi
      refine ⟨ss.get ⟨i, by rw [← hn]; exact hi⟩, ?_⟩
      exact read_of_pack d0 ss M1'.offs M1'.pay i (by rw [← hn]; exact hi))
    (by
      show occupied (List.replicate (roundUpP2 (2 * d1.offsets.length + 1)) INVALID_STR_ID)
          + (List.range d1.offsets.length).length
        ≤ (List.replicate (roundUpP2 (2 * d1.offsets.length + 1)) INVALID_STR_ID).length
      rw [occupied_replicate, List.length_range, List.length_replicate]
      omega)
  refine ⟨dF, ?_, ?_, ?_⟩
  · rw [recoverDict]
    exact hfold
  · rw [strCount, hoffsF]
    exact hn
  · intro i
    exact getString_of_pack dF ss (by rw [hoffsF]; exact M1'.offs)
      (by rw [hpayF]; exact M1'.pay) i

theorem claim_C4_witness :
    ∃ r : (List Int × Dict), runInserts (freshDict (2 ^ 2) false)
        [[102, 111, 111], [98, 97, 114], [98, 97, 122]] = some r ∧
    ∃ rd, recoverDict true r.2.offsets r.2.payload = some rd ∧
      strCount rd = 3 ∧
      ∀ i : Nat, getString rd (Int.ofNat i) =
        [[102, 111, 111], [98, 97, 114], [98, 97, 122]][i]? :=
  claim_C4 2 false true [[102, 111, 111], [98, 97, 114], [98, 97, 122]] (by decide)
    (by decide) (by decide) (by decide)

/-! ### Sorted-cache permutation lemmas -/

theorem insertSorted_perm (le : Int → Int → Bool) (x : Int) (l : List Int) :
    (insertSorted le x l).Perm (x :: l) := by
  induction l with
  | nil => exact List.Perm.refl _
  | cons y ys ih =>
    rw [insertSorted]
    cases h : le x y with
    | true => exact List.Perm.refl _
    | false =>
      simp only [Bool.false_eq_true, if_false]
      exact (ih.cons y).trans (List.Perm.swap x y ys)

theorem sortBy_perm (le : Int → Int → Bool) (l : List Int) : (sortBy le l).Perm l := by
  induction l with
  | nil => exact List.Perm.refl _
  | cons a l ih =>
    show (insertSorted le a (sortBy le l)).Perm (a :: l)
    exact (insertSorted_perm le a (sortBy le l)).trans (ih.cons a)

theorem mergeGo_perm (d : Dict) : ∀ (fuel : Nat) (ts ss : List Int),
    (mergeGo d fuel ts ss).Perm (ts ++ ss) := by
  intro fuel
  induction fuel with
  | zero =>
    intro ts ss
    exact List.Perm.refl _
  | succ fuel ih =>
    intro ts ss
    match ts, ss with
    | [], ss => simp [mergeGo]
    | t :: ts, [] => simp [mergeGo]
    | t :: ts, s :: ss =>
      rw [mergeGo]
      cases h : idLt d t s with
      | true =>
        simp only [if_true]
        exact (ih ts (s :: ss)).cons t
      | false =>
        simp only [Bool.false_eq_true, if_false]
        exact ((ih (t :: ts) ss).cons s).trans List.perm_middle.symm

theorem mergeSortedCache_perm (d : Dict) (ts ss : List Int) :
    (mergeSortedCache d ts ss).Perm (ts ++ ss) :=
  mergeGo_perm d (ts.length + ss.length) ts ss

theorem buildSortedCache_perm (d : Dict) (hlen : d.sortedCache.length ≤ strCount d)
    (hperm : d.sortedCache.Perm ((List.range d.sortedCache.length).map Int.ofNat)) :
    (buildSortedCache d).sortedCache.Perm ((List.range (strCount d)).map Int.ofNat) := by
  show (mergeSortedCache d
      (sortCache d ((List.range' d.sortedCache.length
        (strCount d - d.sortedCache.length)).map Int.ofNat)) d.sortedCache).Perm _
  refine (mergeSortedCache_perm d _ _).trans ?_
  refine (List.Perm.append (sortBy_perm _ _) hperm).trans ?_
  refine List.perm_append_comm.trans ?_
  rw [← List.map_append]
  have hr : List.range d.sortedCache.length ++
      List.range' d.sortedCache.length (strCount d - d.sortedCache.length)
      = List.range (strCount d) := by
    rw [List.range_eq_range', List.range_eq_range']
    have := List.range'_append 0 d.sortedCache.length
      (strCount d - d.sortedCache.length) 1
    simp only [Nat.zero_add, Nat.one_mul] at this
    rw [this]
    congr 1
    omega
  rw [hr]

theorem takeWhile_len_le (q : Int → Bool) (l : List Int) :
    (l.takeWhile q).length ≤ l.length := by
  induction l with
  | nil => simp
  | cons a l ih =>
    rw [List.takeWhile]
    cases q a
    · simp
    · simpa using ih

/-! ### Evaluation lemmas for getCompare -/

theorem opResult_lt (d : Dict) (ci : Int × Int) :
    opResult d ci "<" = d.sortedCache.take
      (if ci.2 != 0 then (if ci.1 == 0 then ci.1 else ci.1 + 1) else ci.1).toNat := rfl

theorem opResult_eq (d : Dict) (ci : Int × Int) :
    opResult d ci "=" =
      (if ci.2 == 0 then [d.sortedCache.getD ci.1.toNat 0] else []) := rfl

theorem opResult_gt (d : Dict) (ci : Int × Int) :
    opResult d ci ">" = d.sortedCache.drop
      (if ci.1 == 0 && decide (0 < ci.2) then ci.1 else ci.1 + 1).toNat := rfl

theorem take_nil_drop_perm (sc : List Int) (m : Nat) :
    (sc.take m ++ [] ++ sc.drop m).Perm sc := by
  rw [List.append_nil, List.take_append_drop]

/-- With `diff = 1` the `=` result is empty and `<`/`>` compute the same cut
index, so the three pieces reassemble the sorted cache. -/
theorem opResult_diff_one (d : Dict) (a : Int) :
    (opResult d (a, 1) "<" ++ opResult d (a, 1) "=" ++ opResult d (a, 1) ">").Perm
      d.sortedCache := by
  rw [opResult_lt, opResult_eq, opResult_gt]
  show (d.sortedCache.take (if (a == 0) = true then a else a + 1).toNat ++ [] ++
      d.sortedCache.drop (if (a == 0 && true) = true then a else a + 1).toNat).Perm
      d.sortedCache
  rw [Bool.and_true]
  by_cases hz : (a == 0) = true
  · rw [if_pos hz]
    exact take_nil_drop_perm d.sortedCache a.toNat
  · rw [if_neg hz]
    exact take_nil_drop_perm d.sortedCache (a + 1).toNat

/-- With `diff = 0` at a valid position `m`, `<` takes before `m`, `=` returns
the element at `m`, and `>` drops through `m`. -/
theorem opResult_diff_zero (d : Dict) (m : Nat) (hm : m < d.sortedCache.length) :
    (opResult d (Int.ofNat m, 0) "<" ++ opResult d (Int.ofNat m, 0) "="
      ++ opResult d (Int.ofNat m, 0) ">").Perm d.sortedCache := by
  rw [opResult_lt, opResult_eq, opResult_gt]
  show (d.sortedCache.take m ++ [d.sortedCache.getD m 0] ++
      d.sortedCache.drop (if (Int.ofNat m == 0 && false) = true then Int.ofNat m
        else Int.ofNat m + 1).toNat).Perm d.sortedCache
  rw [Bool.and_false]
  simp only [Bool.false_eq_true, if_false]
  show (d.sortedCache.take m ++ [d.sortedCache.getD m 0] ++
      d.sortedCache.drop (m + 1)).Perm d.sortedCache
  rw [List.getD_eq_getElem d.sortedCache 0 hm]
  rw [List.append_assoc, List.singleton_append]
  rw [List.getElem_cons_drop, List.take_append_drop]

/-- The three results `<`, `=`, `>` computed from one `(index, diff)` pair cut
the sorted cache into complementary pieces. -/
theorem opResult_partition (d : Dict) (p : Str) (hne : d.sortedCache ≠ []) :
    (opResult d (computeCacheIndex d p) "<" ++ opResult d (computeCacheIndex d p) "="
      ++ opResult d (computeCacheIndex d p) ">").Perm d.sortedCache := by
  have hpos_le : lowerBoundPos d p ≤ d.sortedCache.length :=
    takeWhile_len_le _ d.sortedCache
  have hcieq : computeCacheIndex d p =
      (if (lowerBoundPos d p == d.sortedCache.length) = true
        then (Int.ofNat (d.sortedCache.length - 1), 1)
        else if (storedStrD d (d.sortedCache.getD (lowerBoundPos d p) 0).toNat == p) = true
          then (Int.ofNat (lowerBoundPos d p), 0)
          else (Int.ofNat (lowerBoundPos d p) - 1, 1)) := rfl
  by_cases hA : (lowerBoundPos d p == d.sortedCache.length) = true
  · rw [hcieq, if_pos hA]
    exact opResult_diff_one d _
  · rw [hcieq, if_neg hA]
    by_cases hB : (storedStrD d (d.sortedCache.getD (lowerBoundPos d p) 0).toNat == p) = true
    · rw [if_pos hB]
      have hposlt : lowerBoundPos d p < d.sortedCache.length := by
        have hS : 0 < d.sortedCache.length := List.length_pos.mpr hne
        have hne2 : lowerBoundPos d p ≠ d.sortedCache.length := by simpa using hA
        omega
      exact opResult_diff_zero d _ hposlt
    · rw [if_neg hB]
      exact opResult_diff_one d _

theorem getCompare_notEq (d : Dict) (p : Str) (op : String) (gen w : Nat)
    (hcnt : (strCount d == 0) = false) (hop : ((op == "=") || (op == "<>")) = false) :
    getCompare d p op gen w =
      (let D := if d.sortedCache.length < strCount d then buildSortedCache d else d
       match D.compareCache.lookup p with
       | some ci => some (opResult D ci op, D)
       | none => some (opResult D (computeCacheIndex D p) op,
           { D with compareCache := (p, computeCacheIndex D p) :: D.compareCache })) := by
  unfold getCompare
  rw [hcnt, hop, Bool.and_false]
  rfl

theorem getCompare_full (d : Dict) (p : Str) (op : String) (gen w : Nat)
    (hcnt : (strCount d == 0) = false) (hfull : ¬ (d.sortedCache.length < strCount d)) :
    getCompare d p op gen w =
      (match d.compareCache.lookup p with
       | some ci => some (opResult d ci op, d)
       | none => some (opResult d (computeCacheIndex d p) op,
           { d with compareCache := (p, computeCacheIndex d p) :: d.compareCache })) := by
  unfold getCompare
  rw [hcnt]
  have hd : (decide (d.sortedCache.length < strCount d)) = false := decide_eq_false hfull
  rw [hd]
  simp only [Bool.false_eq_true, if_false, Bool.false_and, if_neg hfull]

/-- Results of `opResult` depend only on the sorted cache, which the
compare-cache insertion does not touch. -/
theorem opResult_congr (d1 d2 : Dict) (ci : Int × Int) (op : String)
    (h : d1.sortedCache = d2.sortedCache) : opResult d1 ci op = opResult d2 ci op := by
  unfold opResult
  rw [h]

/-! ### Claim C5 -/

/-- Claim C5 (scan exclusivity): in a state with no stale compare-cache entry
for `p` (any insert clears that cache) and a consistent sorted cache, running
`get_compare(p, "<")`, then `get_compare(p, "=")`, then `get_compare(p, ">")`
with generation `str_count > 0` yields three id lists whose concatenation is a
permutation of `[0, str_count)` — the three results are pairwise disjoint,
duplicate-free, and their union is exactly the full id range. -/
theorem claim_C5 (d : Dict) (p : Str) (gen w : Nat) (hcnt : 0 < strCount d)
    (hgen : gen = strCount d) (hlen : d.sortedCache.length ≤ strCount d)
    (hperm : d.sortedCache.Perm ((List.range d.sortedCache.length).map Int.ofNat))
    (hcc : d.compareCache.lookup p = none) :
    ∃ r1 d1 r2 d2 r3 d3,
      getCompare d p "<" gen w = some (r1, d1) ∧
      getCompare d1 p "=" gen w = some (r2, d2) ∧
      getCompare d2 p ">" gen w = some (r3, d3) ∧
      (r1 ++ r2 ++ r3).Perm ((List.range (strCount d)).map Int.ofNat) := by
  have hcnt0 : (strCount d == 0) = false := by
    simp only [beq_eq_false_iff_ne, ne_eq]
    omega
  set D := if d.sortedCache.length < strCount d then buildSortedCache d else d with hD
  have hDcount : strCount D = strCount d := by
    rw [hD]
    by_cases hs : d.sortedCache.length < strCount d
    · rw [if_pos hs]
      rfl
    · rw [if_neg hs]
  have hDcc : D.compareCache.lookup p = none := by
    rw [hD]
    by_cases hs : d.sortedCache.length < strCount d
    · rw [if_pos hs]
      exact hcc
    · rw [if_neg hs]
      exact hcc
  have hDperm : D.sortedCache.Perm ((List.range (strCount d)).map Int.ofNat) := by
    rw [hD]
    by_cases hs : d.sortedCache.length < strCount d
    · rw [if_pos hs]
      exact buildSortedCache_perm d hlen hperm
    · rw [if_neg hs]
      have hl : d.sortedCache.length = strCount d := by omega
      rw [← hl]
      exact hperm
  have hDlen : D.sortedCache.length = strCount d := by
    rw [hDperm.length_eq, List.length_map, List.length_range]
  have hDne : D.sortedCache ≠ [] := by
    intro hnil
    rw [hnil] at hDlen
    simp at hDlen
    omega
  set ci := computeCacheIndex D p with hci
  set d1 : Dict := { D with compareCache := (p, ci) :: D.compareCache } with hd1
  have h1 : getCompare d p "<" gen w = some (opResult D ci "<", d1) := by
    rw [getCompare_notEq d p "<" gen w hcnt0 (by decide)]
    show (match D.compareCache.lookup p with
      | some ci => some (opResult D ci "<", D)
      | none => some (opResult D (computeCacheIndex D p) "<",
          { D with compareCache := (p, computeCacheIndex D p) :: D.compareCache })) = _
    rw [hDcc]
  have hd1count : strCount d1 = strCount d := hDcount
  have hd1cnt0 : (strCount d1 == 0) = false := by
    rw [show strCount d1 = strCount d from hd1count]
    exact hcnt0
  have hd1full : ¬ (d1.sortedCache.length < strCount d1) := by
    show ¬ (D.sortedCache.length < strCount d1)
    rw [show strCount d1 = strCount d from hd1count, hDlen]
    omega
  have hd1cc : d1.compareCache.lookup p = some ci := by
    show List.lookup p ((p, ci) :: D.compareCache) = some ci
    rw [List.lookup_cons]
    simp
  have h2 : getCompare d1 p "=" gen w = some (opResult d1 ci "=", d1) := by
    rw [getCompare_full d1 p "=" gen w hd1cnt0 hd1full]
    rw [hd1cc]
  have h3 : getCompare d1 p ">" gen w = some (opResult d1 ci ">", d1) := by
    rw [getCompare_full d1 p ">" gen w hd1cnt0 hd1full]
    rw [hd1cc]
  refine ⟨opResult D ci "<", d1, opResult d1 ci "=", d1, opResult d1 ci ">", d1,
    h1, h2, h3, ?_⟩
  have hcongr2 : opResult d1 ci "=" = opResult D ci "=" := opResult_congr d1 D ci "=" rfl
  have hcongr3 : opResult d1 ci ">" = opResult D ci ">" := opResult_congr d1 D ci ">" rfl
  rw [hcongr2, hcongr3, hci]
  exact (opResult_partition D p hDne).trans hDperm

def compareDemoDict : Dict :=
  { mat := false
    payload := [98, 97, 99]
    offsets := [(0, 1), (1, 1), (2, 1)]
    strIds := [-1, -1, -1, -1, -1, -1, -1, -1]
    rkHashes := [0, 0, 0, 0, 0, 0, 0, 0]
    likeCache := []
    equalCache := []
    compareCache := []
    sortedCache := [1, 0, 2] }

theorem claim_C5_witness :
    ∃ r1 d1 r2 d2 r3 d3,
      getCompare compareDemoDict [98] "<" 3 1 = some (r1, d1) ∧
      getCompare d1 [98] "=" 3 1 = some (r2, d2) ∧
      getCompare d2 [98] ">" 3 1 = some (r3, d3) ∧
      (r1 ++ r2 ++ r3).Perm ((List.range (strCount compareDemoDict)).map Int.ofNat) :=
  claim_C5 compareDemoDict [98] 3 1 (by decide) (by decide) (by decide) (by decide)
    (by decide)

/-! ### Claim C6 -/

def neDemoDict : Dict :=
  { mat := false
    payload := [97, 98]
    offsets := [(0, 1), (1, 1)]
    strIds := [-1, -1, -1, -1]
    rkHashes := [0, 0, 0, 0]
    likeCache := []
    equalCache := []
    compareCache := []
    sortedCache := [0, 1] }

def neDemoDictStale : Dict := { neDemoDict with sortedCache := [] }

/-- Claim C6, failing evaluations: on a dictionary holding `"a"` (id 0) and
`"b"` (id 1), `get_compare(p, "<>")` with generation `str_count = 2` returns
`[0, 1, 0, 1]` for the unmatched pattern `"c"` through the sorted-cache path
(every id `sorted_cache.size()` times instead of once), returns `[0, 1, 2]`
through the equality-scan path (including the out-of-range id
`2 = str_count`), and for the matched pattern `"a"` the equality-scan path
returns `[0, 1, 2]`, which still contains the matched id 0.  The spec itself
flags these loops as suspect and fixes the intent as "all ids except the exact
match"; the code contradicts it. -/
theorem claim_C6_bug :
    (getCompare neDemoDict [99] "<>" 2 1).map (fun r => r.1) = some [0, 1, 0, 1] ∧
    (getCompare neDemoDictStale [99] "<>" 2 1).map (fun r => r.1) = some [0, 1, 2] ∧
    (getCompare neDemoDictStale [97] "<>" 2 1).map (fun r => r.1) = some [0, 1, 2] := by
  refine ⟨?_, ?_, ?_⟩
  · decide
  · decide
  · decide

end StringDict
